import Mathlib

/-!
Verification of the metadata-tree core of the metagrouper-obsidian plugin.

The development embeds, as executable Lean definitions:
  * the tag-segmentation helpers used by the tree builder
    (`String.split("/")` / `Array.join("/")`, modelled at the character level);
  * the `VaultIndexer` lookup surface (the indexer implementation file is not
    part of the analysed sources, so it is modelled from the specification);
  * `TreeBuilder.buildFromTags` with its four phases (tag-node creation,
    file-node attachment, recursive sorting, aggregate count computation),
    from src/tree/tree-builder.ts;
  * the node factories from src/types/tree-node.ts;
  * `SearchQueryBuilder` from src/utils/search-query-builder.ts, where a node
    together with the chain of its ancestors is represented as a list
    (node first, root last), mirroring the parent-pointer walk.

Theorems about these definitions settle the frozen claims C1 - C10.
-/

/-! ## Character-level model of JS string helpers

The tree builder manipulates tags with `tag.split("/")`, `segments.join("/")`,
`fileTag.startsWith(tagPath)` and `fileTag.length`.  These are modelled on the
character list underlying a `String`, with JS semantics (empty pieces are kept
by `split`; `length`/`startsWith` compare character-wise). -/

/-- JS `s.split("/")` on a character list: split at every `'/'`, keeping empty
pieces; the empty string yields one empty piece. -/
def splitSlashC : List Char → List (List Char)
  | [] => [[]]
  | c :: cs =>
    if c = '/' then [] :: splitSlashC cs
    else
      match splitSlashC cs with
      | [] => [[c]]
      | h :: t => (c :: h) :: t

/-- JS `parts.join("/")` on character lists. -/
def joinSlashC : List (List Char) → List Char
  | [] => []
  | [s] => s
  | s :: rest => s ++ '/' :: joinSlashC rest

theorem splitSlashC_ne_nil (l : List Char) : splitSlashC l ≠ [] := by
  induction l with
  | nil => simp [splitSlashC]
  | cons c cs ih =>
    simp only [splitSlashC]
    split
    · simp
    · cases h : splitSlashC cs with
      | nil => simp
      | cons a t => simp

theorem no_slash_of_mem_splitSlashC :
    ∀ (l : List Char) {seg : List Char}, seg ∈ splitSlashC l → '/' ∉ seg := by
  intro l
  induction l with
  | nil =>
    intro seg h
    simp [splitSlashC] at h
    simp [h]
  | cons c cs ih =>
    intro seg h
    simp only [splitSlashC] at h
    by_cases hc : c = '/'
    · rw [if_pos hc] at h
      rcases List.mem_cons.mp h with h1 | h1
      · simp [h1]
      · exact ih h1
    · rw [if_neg hc] at h
      cases hsp : splitSlashC cs with
      | nil => exact absurd hsp (splitSlashC_ne_nil cs)
      | cons a t =>
        rw [hsp] at h
        rcases List.mem_cons.mp h with h1 | h1
        · subst h1
          intro hmem
          rcases List.mem_cons.mp hmem with h2 | h2
          · exact hc h2.symm
          · exact ih (by rw [hsp]; exact List.mem_cons_self a t) h2
        · exact ih (by rw [hsp]; exact List.mem_cons_of_mem a h1)

theorem joinSlashC_splitSlashC (l : List Char) : joinSlashC (splitSlashC l) = l := by
  induction l with
  | nil => simp [splitSlashC, joinSlashC]
  | cons c cs ih =>
    simp only [splitSlashC]
    by_cases hc : c = '/'
    · subst hc
      simp only [if_pos rfl]
      cases hsp : splitSlashC cs with
      | nil => exact absurd hsp (splitSlashC_ne_nil cs)
      | cons a t =>
        rw [hsp] at ih
        simp [joinSlashC, ih]
    · simp only [if_neg hc]
      cases hsp : splitSlashC cs with
      | nil => exact absurd hsp (splitSlashC_ne_nil cs)
      | cons a t =>
        rw [hsp] at ih
        cases t with
        | nil => simpa [joinSlashC] using ih
        | cons b t' => simpa [joinSlashC] using ih

theorem splitSlashC_no_slash {s : List Char} (h : '/' ∉ s) : splitSlashC s = [s] := by
  induction s with
  | nil => simp [splitSlashC]
  | cons c cs ih =>
    have hc : c ≠ '/' := fun hh => h (hh ▸ List.mem_cons_self c cs)
    have hcs : '/' ∉ cs := fun hm => h (List.mem_cons_of_mem c hm)
    simp [splitSlashC, if_neg hc, ih hcs]

theorem splitSlashC_append_slash (cs rest : List Char) (h : '/' ∉ cs) :
    splitSlashC (cs ++ '/' :: rest) = cs :: splitSlashC rest := by
  induction cs with
  | nil => simp [splitSlashC]
  | cons c cs' ih =>
    have hc : c ≠ '/' := fun hh => h (hh ▸ List.mem_cons_self c cs')
    have hcs : '/' ∉ cs' := fun hm => h (List.mem_cons_of_mem c hm)
    simp only [List.cons_append, splitSlashC, if_neg hc, List.append_eq, ih hcs]

theorem splitSlashC_joinSlashC (parts : List (List Char))
    (hne : parts ≠ []) (hfree : ∀ s ∈ parts, '/' ∉ s) :
    splitSlashC (joinSlashC parts) = parts := by
  induction parts with
  | nil => exact absurd rfl hne
  | cons s rest ih =>
    cases rest with
    | nil =>
      simp only [joinSlashC]
      exact splitSlashC_no_slash (hfree s (List.mem_cons_self _ _))
    | cons s2 rest2 =>
      have hs : '/' ∉ s := hfree s (List.mem_cons_self _ _)
      have hfree' : ∀ s' ∈ s2 :: rest2, '/' ∉ s' := fun s' hs' =>
        hfree s' (List.mem_cons_of_mem s hs')
      have ihr := ih (by simp) hfree'
      show splitSlashC (s ++ '/' :: joinSlashC (s2 :: rest2)) = s :: s2 :: rest2
      rw [splitSlashC_append_slash _ _ hs, ihr]

/-! ## String wrappers used by the tree builder -/

/-- JS `tag.split("/")` as a list of segment strings. -/
def splitSlash (s : String) : List String :=
  (splitSlashC s.data).map String.mk

/-- JS `tag.split("/").length` — the segment count of a tag. -/
def tagDepth (s : String) : Nat :=
  (splitSlashC s.data).length

/-- JS `segments.slice(0, -1).join("/")` — the parent tag path. -/
def parentKey (s : String) : String :=
  String.mk (joinSlashC (splitSlashC s.data).dropLast)

/-- JS `s.startsWith(pre)` — character-wise prefix test. -/
def strStartsWith (s pre : String) : Bool :=
  pre.data.isPrefixOf s.data

/-- JS `s.length` — modelled as the character count. -/
def strLen (s : String) : Nat :=
  s.data.length

theorem tagDepth_pos (s : String) : 0 < tagDepth s := by
  unfold tagDepth
  cases h : splitSlashC s.data with
  | nil => exact absurd h (splitSlashC_ne_nil _)
  | cons a t => simp

/-- The parent key of a tag with at least two segments has exactly one segment
fewer; stated for tags whose parent key is nonempty. -/
theorem tagDepth_of_parentKey_ne_empty {t : String} (h : parentKey t ≠ "") :
    tagDepth (parentKey t) + 1 = tagDepth t := by
  unfold parentKey at h ⊢
  unfold tagDepth
  have hdata : (String.mk (joinSlashC (splitSlashC t.data).dropLast)).data
      = joinSlashC (splitSlashC t.data).dropLast := rfl
  rw [hdata]
  have hne : (splitSlashC t.data).dropLast ≠ [] := by
    intro hnil
    apply h
    rw [hnil]
    rfl
  have hfree : ∀ s ∈ (splitSlashC t.data).dropLast, '/' ∉ s := by
    intro s hs
    exact no_slash_of_mem_splitSlashC t.data ((List.dropLast_sublist _).subset hs)
  rw [splitSlashC_joinSlashC _ hne hfree]
  have hlen : (splitSlashC t.data).length - 1 + 1 = (splitSlashC t.data).length := by
    have := splitSlashC_ne_nil t.data
    have : 0 < (splitSlashC t.data).length := List.length_pos.mpr this
    omega
  rw [List.length_dropLast]
  exact hlen

/-! ## Data model

`TFile` models the host's file handle (only `path` and `basename` are read by
the embedded code).  `JSValue` models the JS values that can occur as a
property value in node metadata. -/

structure TFile where
  path : String
  basename : String
deriving DecidableEq, Repr

inductive JSValue where
  | str (s : String)
  | num (n : Int)
  | bool (b : Bool)
  | nullV
deriving DecidableEq, Repr

/-- JS `String(value)` conversion for the modelled values. -/
def JSValue.toStringJS : JSValue → String
  | .str s => s
  | .num n => toString n
  | .bool b => if b then "true" else "false"
  | .nullV => "null"

/-- The optional `metadata` record of a tree node (src/types/tree-node.ts).
`propertyValue := none` models the field being absent / `undefined`;
`some .nullV` models JS `null`. -/
structure NodeMeta where
  tagPath : Option String := none
  propertyKey : Option String := none
  propertyValue : Option JSValue := none
deriving DecidableEq, Repr

inductive NodeType where
  | tag
  | propertyGroup
  | file
deriving DecidableEq, Repr

/-- The non-recursive fields of a `TreeNode` (src/types/tree-node.ts).  The
`parent` back-reference is represented separately: tree values own their
children, and functions that walk parents take the ancestor chain as a list. -/
structure NodeData where
  id : String
  name : String
  type : NodeType
  depth : Nat
  files : List TFile
  fileCount : Nat
  metadata : Option NodeMeta := none
deriving DecidableEq, Repr

inductive TreeNode where
  | mk (data : NodeData) (children : List TreeNode)

def TreeNode.data : TreeNode → NodeData
  | .mk d _ => d

def TreeNode.children : TreeNode → List TreeNode
  | .mk _ c => c

/-- The `metadata?.tagPath` read used throughout the source. -/
def tagPathOf (n : TreeNode) : Option String :=
  n.data.metadata.bind (·.tagPath)

/-- Structural induction for `TreeNode` giving the hypothesis on every child. -/
theorem TreeNode.ind (P : TreeNode → Prop)
    (h : ∀ d cs, (∀ c ∈ cs, P c) → P (.mk d cs)) : ∀ t, P t := by
  have main : ∀ n, ∀ t : TreeNode, sizeOf t ≤ n → P t := by
    intro n
    induction n with
    | zero =>
      intro t ht
      cases t with
      | mk d cs =>
        simp only [TreeNode.mk.sizeOf_spec] at ht
        omega
    | succ n ih =>
      intro t ht
      cases t with
      | mk d cs =>
        apply h
        intro c hc
        apply ih
        have hlt := List.sizeOf_lt_of_mem hc
        simp only [TreeNode.mk.sizeOf_spec] at ht
        omega
  intro t
  exact main (sizeOf t) t (Nat.le_refl _)

/-! ## VaultIndexer (modelled from the spec)

`src/indexer/vault-indexer.ts` is not among the analysed sources; only its
call sites in `TreeBuilder` are.  Modelled from the spec: the MetadataStore /
ReverseIndex hold, per document, its extracted tag set (section 3), the tag
index is exact-match (`documentsWithTag(tag)`, section 4.1), `tagsUnderPrefix`
returns the indexed tags `t` with `t == prefix` or `t` starting with
`prefix + "/"` (section 4.1), and `getAllTags` returns the set of indexed
tags.  The index is a list of per-document entries. -/

structure VaultIndexer where
  entries : List (TFile × List String)
deriving DecidableEq, Repr

/-- Modelled from the spec: the per-document tag set held by the MetadataStore
(first entry for the file; absent files have no tags). -/
def VaultIndexer.getFileTags (idx : VaultIndexer) (f : TFile) : List String :=
  match idx.entries.find? (fun e => e.1 = f) with
  | some e => e.2
  | none => []

/-- Modelled from the spec: the set of all indexed tags. -/
def VaultIndexer.getAllTags (idx : VaultIndexer) : List String :=
  ((idx.entries.map (·.2)).flatten).dedup

/-- Modelled from the spec: `tagsUnderPrefix` — indexed tags equal to the root
or starting with the root followed by `"/"`. -/
def VaultIndexer.getNestedTagsUnder (idx : VaultIndexer) (root : String) : List String :=
  idx.getAllTags.filter (fun t => t = root || strStartsWith t (root ++ "/"))

/-- Modelled from the spec: `documentsWithTag` — exact-match lookup. -/
def VaultIndexer.getFilesWithTag (idx : VaultIndexer) (tag : String) : List TFile :=
  (idx.entries.filter (fun e => tag ∈ e.2)).map (·.1)

/-- The index is well-formed when each file has at most one entry. -/
def VaultIndexer.wf (idx : VaultIndexer) : Prop :=
  (idx.entries.map (·.1)).Nodup

/-! ## Node factories (src/types/tree-node.ts)

`TreeBuilder` calls `createTagNode(tag, [], depth)` and
`createFileNode(file, depth)` without the optional `options` argument, so the
factories are embedded at their defaults (name = last segment, no label). -/

def createTagNode (tagPath : String) (files : List TFile) (depth : Nat) : TreeNode :=
  TreeNode.mk
    { id := "tag:" ++ tagPath
      name := (splitSlash tagPath).getLastD ""
      type := NodeType.tag
      depth := depth
      files := files
      fileCount := files.length
      metadata := some { tagPath := some tagPath } } []

def createPropertyGroupNode (propertyKey : String) (propertyValue : JSValue)
    (files : List TFile) (depth : Nat) : TreeNode :=
  TreeNode.mk
    { id := "prop:" ++ propertyKey ++ ":" ++ propertyValue.toStringJS
      name := propertyValue.toStringJS
      type := NodeType.propertyGroup
      depth := depth
      files := files
      fileCount := files.length
      metadata := some { propertyKey := some propertyKey
                         propertyValue := some propertyValue } } []

def createFileNode (file : TFile) (depth : Nat) : TreeNode :=
  TreeNode.mk
    { id := "file:" ++ file.path
      name := file.basename
      type := NodeType.file
      depth := depth
      files := [file]
      fileCount := 1
      metadata := none } []

/-! ## TreeBuilder (src/tree/tree-builder.ts)

`buildFromTags` is embedded in its four phases.  The mutable `nodeMap` of the
source is captured by the attachment function `attachOf`: tags are processed
in ascending segment-count order, so when tag `t` is processed the map holds
the root object under the key `"root"` plus all candidate tags with fewer
segments; `nodeMap.get(parentTag)` therefore yields
  * the root object when `parentTag` is the empty string (JS falsiness) or is
    the literal string `"root"` while `"root"` is not itself a candidate tag,
  * the parent tag node when `parentTag` is a candidate tag (a candidate tag
    named `"root"` overwrites the root object's map entry),
  * `undefined` otherwise — the node is created but never attached (it is
    unreachable from the returned root). -/

inductive Attach where
  | toRoot
  | toTag (p : String)
  | orphan
deriving DecidableEq, Repr

def attachOf (C : List String) (t : String) : Attach :=
  if parentKey t = "" then .toRoot
  else if parentKey t ∈ C then .toTag (parentKey t)
  else if parentKey t = "root" then .toRoot
  else .orphan

theorem attachOf_toTag {C : List String} {t p : String}
    (h : attachOf C t = Attach.toTag p) : parentKey t = p ∧ p ∈ C ∧ p ≠ "" := by
  unfold attachOf at h
  by_cases h1 : parentKey t = ""
  · rw [if_pos h1] at h
    exact absurd h (by simp)
  · rw [if_neg h1] at h
    by_cases h2 : parentKey t ∈ C
    · rw [if_pos h2] at h
      have hp : parentKey t = p := by cases h; rfl
      subst hp
      exact ⟨rfl, h2, h1⟩
    · rw [if_neg h2] at h
      by_cases h3 : parentKey t = "root"
      · rw [if_pos h3] at h
        exact absurd h (by simp)
      · rw [if_neg h3] at h
        exact absurd h (by simp)

/-- The most-specific-tag scan of `TreeBuilder.addFileNodes` (lines 101-110):
starting from `tagPath`, every file tag that `startsWith` the current best and
is strictly longer replaces it.  Note the source compares with plain
`String.prototype.startsWith`, without requiring a `"/"` boundary. -/
def mostSpecificTag (fileTags : List String) (tagPath : String) : String :=
  fileTags.foldl
    (fun best ft => if strStartsWith ft tagPath && decide (strLen best < strLen ft)
                    then ft else best)
    tagPath

/-- The `filesToAdd` list of `TreeBuilder.addFileNodes` for one tag node:
files carrying the tag whose most-specific scan returns the tag itself. -/
def filesToAddFor (idx : VaultIndexer) (tagPath : String) : List TFile :=
  (idx.getFilesWithTag tagPath).filter
    (fun f => mostSpecificTag (idx.getFileTags f) tagPath = tagPath)

/-- Files attached to the node stored under map key `t`: `addFileNodes` skips
the key `"root"` (which holds the root object, or a tag node literally named
`"root"`), so that entry receives no file children. -/
def filesAttachedTo (idx : VaultIndexer) (t : String) : List TFile :=
  if t = "root" then [] else filesToAddFor idx t

def maxTagDepth (C : List String) : Nat :=
  (C.map tagDepth).foldr max 0

theorem tagDepth_le_maxTagDepth {C : List String} {t : String} (h : t ∈ C) :
    tagDepth t ≤ maxTagDepth C := by
  unfold maxTagDepth
  induction C with
  | nil => cases h
  | cons a l ih =>
    rcases List.mem_cons.mp h with h1 | h1
    · subst h1
      simp only [List.map_cons, List.foldr_cons]
      exact Nat.le_max_left _ _
    · simp only [List.map_cons, List.foldr_cons]
      exact Nat.le_trans (ih h1) (Nat.le_max_right _ _)

/-- One tag node's subtree: the node is created by `createTagNode(tag, [],
segments.length)`; its children are the candidate tags attached beneath it (in
processing order) followed by the file nodes added by `addFileNodes`.

The recursion is indexed by a fuel argument so that the definition reduces in
the kernel; a child tag always has exactly one segment more than its parent
and candidate tags have at most `maxTagDepth C` segments, so any fuel of at
least `maxTagDepth C - tagDepth t` produces the same tree
(`buildSubtreeF_fuel_irrel`), and the fuel passed by `buildRaw` suffices. -/
def TreeBuilder.buildSubtreeF (idx : VaultIndexer) (C : List String) :
    Nat → String → TreeNode
  | 0, t =>
    TreeNode.mk (createTagNode t [] (tagDepth t)).data
      ((filesAttachedTo idx t).map (fun f => createFileNode f (tagDepth t + 1)))
  | fuel + 1, t =>
    TreeNode.mk (createTagNode t [] (tagDepth t)).data
      (((C.filter (fun u => attachOf C u = Attach.toTag t)).map
          (TreeBuilder.buildSubtreeF idx C fuel)) ++
        ((filesAttachedTo idx t).map (fun f => createFileNode f (tagDepth t + 1))))

/-- The root node of `buildFromTags` before sorting and counting: id `"root"`,
name `"Root"`, type `"tag"`, no metadata; its children are the candidate tags
whose parent lookup resolved to the root object, in processing order. -/
def TreeBuilder.rootData : NodeData :=
  { id := "root", name := "Root", type := NodeType.tag, depth := 0,
    files := [], fileCount := 0, metadata := none }

def TreeBuilder.buildRaw (idx : VaultIndexer) (C : List String) : TreeNode :=
  TreeNode.mk TreeBuilder.rootData
    ((C.filter (fun u => attachOf C u = Attach.toRoot)).map
      (TreeBuilder.buildSubtreeF idx C (maxTagDepth C)))

/-- The comparator of `sortTreeRecursive` (lines 166-180): tag nodes before
file nodes, then `name.localeCompare(name, undefined, {numeric: true,
sensitivity: "base"})`.  The host's locale-aware comparison is modelled as the
abstract parameter `cmp`. -/
def childCompare (cmp : String → String → Ordering) (a b : TreeNode) : Ordering :=
  if a.data.type ≠ NodeType.file ∧ b.data.type = NodeType.file then .lt
  else if a.data.type = NodeType.file ∧ b.data.type ≠ NodeType.file then .gt
  else cmp a.data.name b.data.name

/-- JS `Array.prototype.sort` keeps `a` before `b` when the comparator is
non-positive.  ES2019 `sort` is stable, and for a consistent comparator a
stable sort's output is unique, so it is modelled by the stable
`List.insertionSort` with this relation. -/
def childLEP (cmp : String → String → Ordering) (a b : TreeNode) : Prop :=
  childCompare cmp a b ≠ Ordering.gt

instance (cmp : String → String → Ordering) : DecidableRel (childLEP cmp) :=
  fun a b => inferInstanceAs (Decidable (childCompare cmp a b ≠ Ordering.gt))

mutual
/-- The height of a tree (and, mutually, the maximal height in a forest). -/
def heightOf : TreeNode → Nat
  | .mk _ cs => heightListOf cs + 1
def heightListOf : List TreeNode → Nat
  | [] => 0
  | c :: cs => max (heightOf c) (heightListOf cs)
end

/-- `sortTreeRecursive`: sort the children, then recurse into each child.
(The early return for childless nodes is a no-op and needs no case.)
Fuel-indexed so that the definition reduces in the kernel; any fuel of at
least the tree's height gives the same result, and `sortTree` passes the
height itself. -/
def sortTreeF (cmp : String → String → Ordering) : Nat → TreeNode → TreeNode
  | 0, t => t
  | fuel + 1, .mk d cs =>
    TreeNode.mk d ((cs.insertionSort (childLEP cmp)).map (sortTreeF cmp fuel))

def sortTree (cmp : String → String → Ordering) (t : TreeNode) : TreeNode :=
  sortTreeF cmp (heightOf t) t

mutual
/-- `calculateFileCounts`: a file node gets count 1 (children untouched);
any other node gets the sum of its recursively updated children's counts. -/
def calcCounts : TreeNode → TreeNode
  | .mk d cs =>
    if d.type = NodeType.file then TreeNode.mk { d with fileCount := 1 } cs
    else
      TreeNode.mk
        { d with fileCount :=
            ((calcCountsL cs).map (fun c => c.data.fileCount)).sum }
        (calcCountsL cs)
def calcCountsL : List TreeNode → List TreeNode
  | [] => []
  | c :: cs => calcCounts c :: calcCountsL cs
end

/-- The candidate tag list of `buildFromTags` (lines 25-27): `rootTag` is a
JS optional string, and the empty string is falsy. -/
def TreeBuilder.candidateTags (idx : VaultIndexer) (rootTag : Option String) : List String :=
  match rootTag with
  | some r => if r = "" then idx.getAllTags else idx.getNestedTagsUnder r
  | none => idx.getAllTags

/-- The `(a, b) => depthA - depthB` comparator of the tag pre-sort. -/
def depthLE (a b : String) : Prop := tagDepth a ≤ tagDepth b

instance : DecidableRel depthLE := fun a b => Nat.decLe _ _

/-- `TreeBuilder.buildFromTags`: candidate tags, stable sort by segment count
(ES2019 `Array.prototype.sort` is stable; modelled by the stable
`insertionSort`), node creation and file attachment (`buildRaw`), recursive
sorting, then aggregate counts. -/
def TreeBuilder.buildFromTags (idx : VaultIndexer) (cmp : String → String → Ordering)
    (rootTag : Option String) : TreeNode :=
  let allTags := TreeBuilder.candidateTags idx rootTag
  let sorted := allTags.insertionSort depthLE
  calcCounts (sortTree cmp (TreeBuilder.buildRaw idx sorted))

/-! ## SearchQueryBuilder (src/utils/search-query-builder.ts)

`buildQuery(node)` walks the `parent` references from the clicked node up to
the root.  The walk is embedded by passing the chain of nodes explicitly: the
list holds the node's own data first, then each ancestor's data, the root
last — exactly the sequence of `currentNode` values of the `while` loop. -/

inductive HierarchyLevel where
  | property (key : String) (separateListValues : Bool) (showPropertyName : Bool)
  | tag (key : String) (depth : Int) (showFullPath : Bool)
deriving DecidableEq, Repr

structure HierarchyConfig where
  name : String
  levels : List HierarchyLevel
deriving DecidableEq, Repr

/-- `findPropertyLevel`: first property level of the config with the node's
property key. -/
def SearchQueryBuilder.findPropertyLevel (cfg : HierarchyConfig) (n : NodeData) :
    Option HierarchyLevel :=
  match n.metadata.bind (·.propertyKey) with
  | none => none
  | some key =>
    cfg.levels.find? (fun l =>
      match l with
      | .property k _ _ => k = key
      | .tag _ _ _ => false)

/-- `buildTagFilter`: `tag:#<path>`, or `null` when `metadata?.tagPath` is
absent or the empty string (JS falsiness of `""`). -/
def SearchQueryBuilder.buildTagFilter (n : NodeData) : Option String :=
  match n.metadata.bind (·.tagPath) with
  | none => none
  | some tagPath => if tagPath = "" then none else some ("tag:#" ++ tagPath)

/-- `buildPropertyFilter`: `[<key>:<value>]`, or `null` when the key is absent
or empty (JS falsiness) or the value is `undefined` or `null`.  The source
looks up `separateListValues` from the hierarchy config but emits the same
syntax either way (its own comment, lines 96-98). -/
def SearchQueryBuilder.buildPropertyFilter (cfg : HierarchyConfig) (n : NodeData) :
    Option String :=
  match n.metadata.bind (·.propertyKey) with
  | none => none
  | some propertyKey =>
    if propertyKey = "" then none
    else
      match n.metadata.bind (·.propertyValue) with
      | none => none
      | some JSValue.nullV => none
      | some v =>
        let hierarchyLevel := SearchQueryBuilder.findPropertyLevel cfg n
        let _separateListValues :=
          match hierarchyLevel with
          | some (.property _ sep _) => sep
          | _ => true
        some ("[" ++ propertyKey ++ ":" ++ v.toStringJS ++ "]")

/-- `buildNodeFilter`: dispatch on the node type; file nodes contribute
nothing. -/
def SearchQueryBuilder.buildNodeFilter (cfg : HierarchyConfig) (n : NodeData) :
    Option String :=
  match n.type with
  | .tag => SearchQueryBuilder.buildTagFilter n
  | .propertyGroup => SearchQueryBuilder.buildPropertyFilter cfg n
  | .file => none

/-- `buildQuery`: walk the chain, `unshift` each filter (root-to-leaf order),
join with a single space. -/
def SearchQueryBuilder.buildQuery (cfg : HierarchyConfig) (chain : List NodeData) : String :=
  String.intercalate " "
    (chain.foldl
      (fun filters n =>
        match SearchQueryBuilder.buildNodeFilter cfg n with
        | some f => f :: filters
        | none => filters)
      [])

/-! ## Spec-side rendering of the query formatter

Modelled from the spec: section 4.4 — one filter fragment per GroupNode on
the ancestor chain (the root, which carries no grouping metadata, contributes
nothing), in root-to-leaf order, joined with a single space; tag fragments
`tag:#<fullTagPath>`, property fragments `[<key>:<value>]`, DocumentLeaf
nodes contribute nothing.  This definition follows the spec's words and is
compared with the source-derived `SearchQueryBuilder.buildQuery`. -/
def specFragment (n : NodeData) : Option String :=
  match n.type with
  | .file => none
  | .tag =>
    match n.metadata.bind (·.tagPath) with
    | some p => some ("tag:#" ++ p)
    | none => none
  | .propertyGroup =>
    match n.metadata.bind (·.propertyKey), n.metadata.bind (·.propertyValue) with
    | some k, some v => some ("[" ++ k ++ ":" ++ v.toStringJS ++ "]")
    | _, _ => none

def specBuildQuery (chain : List NodeData) : String :=
  String.intercalate " " (chain.reverse.filterMap specFragment)

/-! ## Observations on built trees -/

mutual
/-- Every node of a tree, the node itself first, then its descendants in
child order (and, mutually, of all trees of a forest). -/
def allNodes : TreeNode → List TreeNode
  | .mk d cs => TreeNode.mk d cs :: allNodesL cs
def allNodesL : List TreeNode → List TreeNode
  | [] => []
  | c :: cs => allNodes c ++ allNodesL cs
end

/-- The tag paths of the group nodes present in a tree (root and file nodes
carry no `tagPath`). -/
def tagPathsIn (t : TreeNode) : List String :=
  (allNodes t).filterMap tagPathOf

/-- Does the node have a file-node child wrapping exactly the file `f`? -/
def hasFileLeaf (f : TFile) (n : TreeNode) : Bool :=
  n.children.any (fun c => c.data.type = NodeType.file && c.data.files = [f])

/-- The tag paths under which the file `f` appears as a file leaf. -/
def placementPaths (f : TFile) (t : TreeNode) : List String :=
  (allNodes t).filterMap (fun n => if hasFileLeaf f n then tagPathOf n else none)

/-- Number of file-leaf nodes for `f` in the whole tree. -/
def leafCountFor (f : TFile) (t : TreeNode) : Nat :=
  (allNodes t).countP (fun n => n.data.type = NodeType.file && n.data.files = [f])

mutual
/-- C2's invariant as a recursive check: every file node has count 1 and no
children; every other node's count is the sum of its children's counts; and
every node's count equals its number of file-leaf descendants. -/
def countFileLeaves : TreeNode → Nat
  | .mk d cs =>
    (if d.type = NodeType.file then 1 else 0) + countFileLeavesL cs
def countFileLeavesL : List TreeNode → Nat
  | [] => 0
  | c :: cs => countFileLeaves c + countFileLeavesL cs
end

mutual
def countsOk : TreeNode → Bool
  | .mk d cs =>
    (if d.type = NodeType.file then decide (d.fileCount = 1) && cs.isEmpty
     else decide (d.fileCount = (cs.map (fun c => c.data.fileCount)).sum)) &&
    decide (d.fileCount = countFileLeaves (TreeNode.mk d cs)) &&
    countsOkL cs
def countsOkL : List TreeNode → Bool
  | [] => true
  | c :: cs => countsOk c && countsOkL cs
end

mutual
/-- C10's invariant: non-file nodes have an empty `files` array; file nodes
hold exactly their single file and have no children. -/
def filesFieldOk : TreeNode → Bool
  | .mk d cs =>
    (if d.type = NodeType.file then decide (d.files.length = 1) && cs.isEmpty
     else d.files.isEmpty) &&
    filesFieldOkL cs
def filesFieldOkL : List TreeNode → Bool
  | [] => true
  | c :: cs => filesFieldOk c && filesFieldOkL cs
end

/-- Adjacent-pairs check for a Boolean relation. -/
def chainOkB (le : TreeNode → TreeNode → Bool) : List TreeNode → Bool
  | [] => true
  | [_] => true
  | a :: b :: rest => le a b && chainOkB le (b :: rest)

mutual
/-- C6's invariant: every node's children list is `le`-ordered on adjacent
pairs, recursively. -/
def sortedOkB (le : TreeNode → TreeNode → Bool) : TreeNode → Bool
  | .mk _ cs => chainOkB le cs && sortedOkBL le cs
def sortedOkBL (le : TreeNode → TreeNode → Bool) : List TreeNode → Bool
  | [] => true
  | c :: cs => sortedOkB le c && sortedOkBL le cs
end

/-- Does the tree contain a descending chain of children matching the given
tag paths, starting at the given node's children? -/
def hasPathChain : TreeNode → List String → Bool
  | _, [] => true
  | t, p :: ps =>
    t.children.any (fun c => decide (tagPathOf c = some p) && hasPathChain c ps)

/-- The segment-prefix chain of a tag: the tags formed by its first `i`
segments, for `i = 1 .. segment count` (the tag itself last). -/
def ancestorChainOf (t : String) : List String :=
  (List.range (tagDepth t)).map
    (fun i => String.mk (joinSlashC ((splitSlashC t.data).take (i + 1))))

/-! ## List forms of the mutual definitions -/

theorem allNodesL_eq (cs : List TreeNode) :
    allNodesL cs = (cs.map allNodes).flatten := by
  induction cs with
  | nil => simp [allNodesL]
  | cons c cs ih => simp [allNodesL, ih]

theorem calcCountsL_eq (cs : List TreeNode) :
    calcCountsL cs = cs.map calcCounts := by
  induction cs with
  | nil => simp [calcCountsL]
  | cons c cs ih => simp [calcCountsL, ih]

theorem countFileLeavesL_eq (cs : List TreeNode) :
    countFileLeavesL cs = (cs.map countFileLeaves).sum := by
  induction cs with
  | nil => simp [countFileLeavesL]
  | cons c cs ih => simp [countFileLeavesL, ih]

theorem countsOkL_eq (cs : List TreeNode) :
    countsOkL cs = cs.all countsOk := by
  induction cs with
  | nil => simp [countsOkL]
  | cons c cs ih => simp [countsOkL, ih]

theorem filesFieldOkL_eq (cs : List TreeNode) :
    filesFieldOkL cs = cs.all filesFieldOk := by
  induction cs with
  | nil => simp [filesFieldOkL]
  | cons c cs ih => simp [filesFieldOkL, ih]

theorem sortedOkBL_eq (le : TreeNode → TreeNode → Bool) (cs : List TreeNode) :
    sortedOkBL le cs = cs.all (sortedOkB le) := by
  induction cs with
  | nil => simp [sortedOkBL]
  | cons c cs ih => simp [sortedOkBL, ih]

theorem heightListOf_le_of_mem {c : TreeNode} {cs : List TreeNode} (h : c ∈ cs) :
    heightOf c ≤ heightListOf cs := by
  induction cs with
  | nil => cases h
  | cons a l ih =>
    rcases List.mem_cons.mp h with h1 | h1
    · subst h1
      simp [heightListOf, Nat.le_max_left]
    · simp only [heightListOf]
      exact Nat.le_trans (ih h1) (Nat.le_max_right _ _)

/-! ## The most-specific-tag scan -/

theorem mostSpecificTag_aux_mono (tagPath : String) :
    ∀ (l : List String) (b : String),
      strLen b ≤ strLen (l.foldl
        (fun best ft => if strStartsWith ft tagPath && decide (strLen best < strLen ft)
                        then ft else best) b) := by
  intro l
  induction l with
  | nil => intro b; exact Nat.le_refl _
  | cons ft l ih =>
    intro b
    simp only [List.foldl_cons]
    by_cases hc : (strStartsWith ft tagPath && decide (strLen b < strLen ft)) = true
    · rw [if_pos hc]
      have hlt : strLen b < strLen ft := of_decide_eq_true (Bool.and_elim_right hc)
      exact Nat.le_trans (Nat.le_of_lt hlt) (ih ft)
    · rw [if_neg hc]
      exact ih b


theorem mostSpecificTag_aux_gt (tagPath : String) :
    ∀ (l : List String) (b : String),
      (∃ v ∈ l, strStartsWith v tagPath = true ∧ strLen tagPath < strLen v) →
      strLen tagPath < strLen (l.foldl
        (fun best ft => if strStartsWith ft tagPath && decide (strLen best < strLen ft)
                        then ft else best) b) := by
  intro l
  induction l with
  | nil =>
    intro b hb
    obtain ⟨v, hv, _⟩ := hb
    cases hv
  | cons ft l ih =>
    intro b hb
    obtain ⟨v, hv, hv1, hv2⟩ := hb
    simp only [List.foldl_cons]
    rcases List.mem_cons.mp hv with h1 | h1
    · subst h1
      by_cases hc : (strStartsWith v tagPath && decide (strLen b < strLen v)) = true
      · rw [if_pos hc]
        exact Nat.lt_of_lt_of_le hv2 (mostSpecificTag_aux_mono tagPath l v)
      · rw [if_neg hc]
        rw [hv1, Bool.true_and] at hc
        have hle : strLen v ≤ strLen b := by
          by_contra hh
          exact hc (decide_eq_true (Nat.lt_of_not_le hh))
        have hb' : strLen tagPath < strLen b := Nat.lt_of_lt_of_le hv2 hle
        exact Nat.lt_of_lt_of_le hb' (mostSpecificTag_aux_mono tagPath l b)
    · by_cases hc : (strStartsWith ft tagPath && decide (strLen b < strLen ft)) = true
      · rw [if_pos hc]
        exact ih ft ⟨v, h1, hv1, hv2⟩
      · rw [if_neg hc]
        exact ih b ⟨v, h1, hv1, hv2⟩

theorem mostSpecificTag_aux_fix (tagPath : String) :
    ∀ (l : List String),
      (∀ u ∈ l, strStartsWith u tagPath = true → strLen u ≤ strLen tagPath) →
      (l.foldl
        (fun best ft => if strStartsWith ft tagPath && decide (strLen best < strLen ft)
                        then ft else best) tagPath) = tagPath := by
  intro l
  induction l with
  | nil => intro _; rfl
  | cons ft l ih =>
    intro hl
    simp only [List.foldl_cons]
    have hguard : (strStartsWith ft tagPath && decide (strLen tagPath < strLen ft)) = false := by
      by_cases hsw : strStartsWith ft tagPath = true
      · have hle : strLen ft ≤ strLen tagPath := hl ft (List.mem_cons_self _ _) hsw
        simp [hsw, Nat.not_lt.mpr hle]
      · simp [Bool.eq_false_iff.mpr hsw]
    rw [hguard]
    simp only [Bool.false_eq_true, if_false]
    exact ih (fun u hu => hl u (List.mem_cons_of_mem _ hu))

/-- `mostSpecificTag` returns `tagPath` itself exactly when no file tag is a
strictly longer string extension of `tagPath`. -/
theorem mostSpecificTag_eq_self_iff (fileTags : List String) (tagPath : String) :
    mostSpecificTag fileTags tagPath = tagPath ↔
      ∀ u ∈ fileTags, strStartsWith u tagPath = true → strLen u ≤ strLen tagPath := by
  constructor
  · intro h u hu hsw
    by_contra hlen
    have hlt : strLen tagPath < strLen u := Nat.lt_of_not_le hlen
    have := mostSpecificTag_aux_gt tagPath fileTags tagPath ⟨u, hu, hsw, hlt⟩
    rw [show (fileTags.foldl
          (fun best ft => if strStartsWith ft tagPath && decide (strLen best < strLen ft)
                          then ft else best) tagPath) = mostSpecificTag fileTags tagPath from rfl,
        h] at this
    exact Nat.lt_irrefl _ this
  · intro hall
    exact mostSpecificTag_aux_fix tagPath fileTags hall

/-! ## Stage lemmas for sorting and counting -/

theorem sortTreeF_data (cmp : String → String → Ordering) (fuel : Nat) (t : TreeNode) :
    (sortTreeF cmp fuel t).data = t.data := by
  cases fuel with
  | zero => rfl
  | succ fuel => cases t with | mk d cs => rfl

theorem sortTreeF_fuel_irrel (cmp : String → String → Ordering) :
    ∀ (f1 f2 : Nat) (t : TreeNode), heightOf t ≤ f1 → heightOf t ≤ f2 →
      sortTreeF cmp f1 t = sortTreeF cmp f2 t := by
  intro f1
  induction f1 with
  | zero =>
    intro f2 t h1 h2
    cases t with
    | mk d cs => simp [heightOf] at h1
  | succ f1 ih =>
    intro f2 t h1 h2
    cases t with
    | mk d cs =>
      cases f2 with
      | zero => simp [heightOf] at h2
      | succ f2 =>
        simp only [sortTreeF]
        congr 1
        apply List.map_congr_left
        intro c hc
        have hcs : c ∈ cs := (List.mem_insertionSort _).mp hc
        have hh : heightOf c ≤ heightListOf cs := heightListOf_le_of_mem hcs
        simp only [heightOf] at h1 h2
        exact ih f2 c (by omega) (by omega)

/-- The recursion equation for the sorting phase. -/
theorem sortTree_eq (cmp : String → String → Ordering) (d : NodeData) (cs : List TreeNode) :
    sortTree cmp (TreeNode.mk d cs) =
      TreeNode.mk d ((cs.insertionSort (childLEP cmp)).map (sortTree cmp)) := by
  unfold sortTree
  have hh : heightOf (TreeNode.mk d cs) = heightListOf cs + 1 := by simp [heightOf]
  rw [hh]
  simp only [sortTreeF]
  congr 1
  apply List.map_congr_left
  intro c hc
  have hcs : c ∈ cs := (List.mem_insertionSort _).mp hc
  exact sortTreeF_fuel_irrel cmp (heightListOf cs) (heightOf c) c
    (heightListOf_le_of_mem hcs) (Nat.le_refl _)

theorem sortTree_data (cmp : String → String → Ordering) (t : TreeNode) :
    (sortTree cmp t).data = t.data := by
  unfold sortTree
  exact sortTreeF_data cmp _ t

theorem calcCounts_data_type (t : TreeNode) :
    (calcCounts t).data.type = t.data.type ∧
    (calcCounts t).data.name = t.data.name ∧
    (calcCounts t).data.files = t.data.files ∧
    (calcCounts t).data.metadata = t.data.metadata := by
  cases t with
  | mk d cs =>
    simp only [calcCounts]
    by_cases hf : d.type = NodeType.file
    · rw [if_pos hf]
      exact ⟨rfl, rfl, rfl, rfl⟩
    · rw [if_neg hf]
      exact ⟨rfl, rfl, rfl, rfl⟩

theorem calcCounts_children (d : NodeData) (cs : List TreeNode) :
    (calcCounts (TreeNode.mk d cs)).children =
      (if d.type = NodeType.file then cs else cs.map calcCounts) := by
  simp only [calcCounts]
  by_cases hf : d.type = NodeType.file
  · rw [if_pos hf, if_pos hf]
    rfl
  · rw [if_neg hf, if_neg hf]
    simp [TreeNode.children, calcCountsL_eq]

/-! ## The `filesFieldOk` invariant (claim C10) -/

theorem filesFieldOk_unfold (d : NodeData) (cs : List TreeNode) :
    filesFieldOk (TreeNode.mk d cs) =
      ((if d.type = NodeType.file then decide (d.files.length = 1) && cs.isEmpty
        else d.files.isEmpty) && cs.all filesFieldOk) := by
  simp only [filesFieldOk, filesFieldOkL_eq]

theorem filesFieldOk_createFileNode (f : TFile) (k : Nat) :
    filesFieldOk (createFileNode f k) = true := by
  simp [createFileNode, filesFieldOk_unfold]

theorem filesFieldOk_buildSubtreeF (idx : VaultIndexer) (C : List String) :
    ∀ (fuel : Nat) (t : String),
      filesFieldOk (TreeBuilder.buildSubtreeF idx C fuel t) = true := by
  intro fuel
  induction fuel with
  | zero =>
    intro t
    simp only [TreeBuilder.buildSubtreeF]
    rw [filesFieldOk_unfold]
    simp [createTagNode, TreeNode.data, List.all_eq_true, filesFieldOk_createFileNode]
  | succ fuel ih =>
    intro t
    simp only [TreeBuilder.buildSubtreeF]
    rw [filesFieldOk_unfold]
    simp only [createTagNode, TreeNode.data]
    simp [List.all_eq_true, filesFieldOk_createFileNode, ih]
    intro x u hu hat heq
    subst heq
    exact ih u

theorem filesFieldOk_buildRaw (idx : VaultIndexer) (C : List String) :
    filesFieldOk (TreeBuilder.buildRaw idx C) = true := by
  simp only [TreeBuilder.buildRaw]
  rw [filesFieldOk_unfold]
  simp only [TreeBuilder.rootData]
  simp [List.all_eq_true]
  intro x u hu hat heq
  subst heq
  exact filesFieldOk_buildSubtreeF idx C (maxTagDepth C) u

theorem filesFieldOk_sortTree (cmp : String → String → Ordering) :
    ∀ t, filesFieldOk t = true → filesFieldOk (sortTree cmp t) = true := by
  apply TreeNode.ind (P := fun t => filesFieldOk t = true → filesFieldOk (sortTree cmp t) = true)
  intro d cs ih h
  rw [sortTree_eq]
  rw [filesFieldOk_unfold] at h ⊢
  simp only [Bool.and_eq_true] at h
  obtain ⟨hloc, hall⟩ := h
  simp only [Bool.and_eq_true]
  constructor
  · by_cases hf : d.type = NodeType.file
    · rw [if_pos hf] at hloc ⊢
      simp only [Bool.and_eq_true] at hloc
      obtain ⟨h1, h2⟩ := hloc
      have : cs = [] := List.isEmpty_iff.mp h2
      subst this
      simp [h1]
    · rw [if_neg hf] at hloc ⊢
      exact hloc
  · simp only [List.all_eq_true] at hall ⊢
    intro c' hc'
    simp only [List.mem_map] at hc'
    obtain ⟨c, hc, rfl⟩ := hc'
    have hcs : c ∈ cs := (List.mem_insertionSort _).mp hc
    exact ih c hcs (hall c hcs)

theorem filesFieldOk_calcCounts :
    ∀ t, filesFieldOk t = true → filesFieldOk (calcCounts t) = true := by
  apply TreeNode.ind (P := fun t => filesFieldOk t = true → filesFieldOk (calcCounts t) = true)
  intro d cs ih h
  rw [filesFieldOk_unfold] at h
  simp only [Bool.and_eq_true] at h
  obtain ⟨hloc, hall⟩ := h
  simp only [calcCounts]
  by_cases hf : d.type = NodeType.file
  · rw [if_pos hf]
    rw [filesFieldOk_unfold]
    simp only [Bool.and_eq_true]
    rw [if_pos hf] at hloc ⊢
    exact ⟨hloc, hall⟩
  · rw [if_neg hf]
    rw [filesFieldOk_unfold]
    simp only [Bool.and_eq_true]
    constructor
    · rw [if_neg hf] at hloc ⊢
      exact hloc
    · rw [calcCountsL_eq]
      simp only [List.all_eq_true] at hall ⊢
      intro c' hc'
      simp only [List.mem_map] at hc'
      obtain ⟨c, hc, rfl⟩ := hc'
      exact ih c hc (hall c hc)

theorem filesFieldOk_buildFromTags (idx : VaultIndexer) (cmp : String → String → Ordering)
    (rootTag : Option String) :
    filesFieldOk (TreeBuilder.buildFromTags idx cmp rootTag) = true := by
  unfold TreeBuilder.buildFromTags
  exact filesFieldOk_calcCounts _ (filesFieldOk_sortTree cmp _ (filesFieldOk_buildRaw _ _))

/-! ## The aggregate-count invariant (claim C2) -/

theorem countFileLeaves_unfold (d : NodeData) (cs : List TreeNode) :
    countFileLeaves (TreeNode.mk d cs) =
      (if d.type = NodeType.file then 1 else 0) + (cs.map countFileLeaves).sum := by
  simp only [countFileLeaves, countFileLeavesL_eq]

theorem countsOk_unfold (d : NodeData) (cs : List TreeNode) :
    countsOk (TreeNode.mk d cs) =
      ((if d.type = NodeType.file then decide (d.fileCount = 1) && cs.isEmpty
        else decide (d.fileCount = (cs.map (fun c => c.data.fileCount)).sum)) &&
       decide (d.fileCount = countFileLeaves (TreeNode.mk d cs)) &&
       cs.all countsOk) := by
  simp only [countsOk, countsOkL_eq]

theorem fileCount_calcCounts :
    ∀ t, filesFieldOk t = true →
      (calcCounts t).data.fileCount = countFileLeaves (calcCounts t) := by
  apply TreeNode.ind
    (P := fun t => filesFieldOk t = true →
      (calcCounts t).data.fileCount = countFileLeaves (calcCounts t))
  intro d cs ih h
  rw [filesFieldOk_unfold] at h
  simp only [Bool.and_eq_true] at h
  obtain ⟨hloc, hall⟩ := h
  simp only [calcCounts]
  by_cases hf : d.type = NodeType.file
  · rw [if_pos hf]
    rw [if_pos hf] at hloc
    simp only [Bool.and_eq_true] at hloc
    have hcs : cs = [] := List.isEmpty_iff.mp hloc.2
    subst hcs
    rw [countFileLeaves_unfold]
    simp [hf, TreeNode.data]
  · rw [if_neg hf]
    rw [countFileLeaves_unfold]
    simp only [TreeNode.data, if_neg hf, calcCountsL_eq]
    rw [Nat.zero_add]
    simp only [List.map_map]
    apply congrArg List.sum
    apply List.map_congr_left
    intro c hc
    simp only [List.all_eq_true] at hall
    exact ih c hc (hall c hc)

theorem countsOk_calcCounts :
    ∀ t, filesFieldOk t = true → countsOk (calcCounts t) = true := by
  apply TreeNode.ind
    (P := fun t => filesFieldOk t = true → countsOk (calcCounts t) = true)
  intro d cs ih h
  have hcnt := fileCount_calcCounts (TreeNode.mk d cs) h
  rw [filesFieldOk_unfold] at h
  simp only [Bool.and_eq_true] at h
  obtain ⟨hloc, hall⟩ := h
  simp only [calcCounts] at hcnt ⊢
  by_cases hf : d.type = NodeType.file
  · rw [if_pos hf]
    rw [if_pos hf] at hcnt hloc
    simp only [Bool.and_eq_true] at hloc
    have hcs : cs = [] := List.isEmpty_iff.mp hloc.2
    subst hcs
    rw [countsOk_unfold]
    simp [hf, TreeNode.data, hcnt]
    rw [countFileLeaves_unfold]
    simp
  · rw [if_neg hf]
    rw [if_neg hf] at hcnt
    rw [countsOk_unfold]
    simp only [Bool.and_eq_true]
    refine ⟨⟨?_, ?_⟩, ?_⟩
    · simp only [TreeNode.data, if_neg hf]
      simp [calcCountsL_eq]
    · simp only [TreeNode.data] at hcnt ⊢
      exact decide_eq_true hcnt
    · rw [calcCountsL_eq]
      simp only [List.all_eq_true]
      intro c' hc'
      simp only [List.mem_map] at hc'
      obtain ⟨c, hc, rfl⟩ := hc'
      simp only [List.all_eq_true] at hall
      exact ih c hc (hall c hc)

theorem countsOk_buildFromTags (idx : VaultIndexer) (cmp : String → String → Ordering)
    (rootTag : Option String) :
    countsOk (TreeBuilder.buildFromTags idx cmp rootTag) = true := by
  unfold TreeBuilder.buildFromTags
  exact countsOk_calcCounts _ (filesFieldOk_sortTree cmp _ (filesFieldOk_buildRaw _ _))

/-! ## The child-ordering invariant (claim C6) -/

def childLEB (cmp : String → String → Ordering) (a b : TreeNode) : Bool :=
  decide (childLEP cmp a b)

theorem childCompare_congr (cmp : String → String → Ordering) {a a' b b' : TreeNode}
    (hat : a'.data.type = a.data.type) (han : a'.data.name = a.data.name)
    (hbt : b'.data.type = b.data.type) (hbn : b'.data.name = b.data.name) :
    childCompare cmp a' b' = childCompare cmp a b := by
  unfold childCompare
  rw [hat, han, hbt, hbn]

theorem childLEP_trans (cmp : String → String → Ordering)
    (htrans : ∀ x y z, cmp x y ≠ Ordering.gt → cmp y z ≠ Ordering.gt → cmp x z ≠ Ordering.gt)
    (a b c : TreeNode) (hab : childLEP cmp a b) (hbc : childLEP cmp b c) :
    childLEP cmp a c := by
  unfold childLEP childCompare at *
  by_cases hfa : a.data.type = NodeType.file <;>
    by_cases hfb : b.data.type = NodeType.file <;>
      by_cases hfc : c.data.type = NodeType.file <;>
        simp [hfa, hfb, hfc] at hab hbc ⊢ <;>
          first
            | exact htrans _ _ _ hab hbc
            | skip

theorem childLEP_total (cmp : String → String → Ordering)
    (htotal : ∀ x y, cmp x y = Ordering.gt → cmp y x ≠ Ordering.gt)
    (a b : TreeNode) : childLEP cmp a b ∨ childLEP cmp b a := by
  unfold childLEP childCompare
  by_cases hfa : a.data.type = NodeType.file <;>
    by_cases hfb : b.data.type = NodeType.file <;>
      simp [hfa, hfb]
  · by_cases h : cmp a.data.name b.data.name = Ordering.gt
    · exact Or.inr (htotal _ _ h)
    · exact Or.inl h
  · by_cases h : cmp a.data.name b.data.name = Ordering.gt
    · exact Or.inr (htotal _ _ h)
    · exact Or.inl h

theorem chainOkB_of_pairwise (cmp : String → String → Ordering) :
    ∀ (cs : List TreeNode), List.Pairwise (childLEP cmp) cs →
      chainOkB (childLEB cmp) cs = true := by
  intro cs
  induction cs with
  | nil => intro _; rfl
  | cons a l ih =>
    intro h
    rw [List.pairwise_cons] at h
    cases l with
    | nil => rfl
    | cons b l2 =>
      simp only [chainOkB, Bool.and_eq_true]
      refine ⟨decide_eq_true (h.1 b (List.mem_cons_self _ _)), ih h.2⟩

theorem sortedOkB_unfold (le : TreeNode → TreeNode → Bool) (d : NodeData) (cs : List TreeNode) :
    sortedOkB le (TreeNode.mk d cs) = (chainOkB le cs && cs.all (sortedOkB le)) := by
  simp only [sortedOkB, sortedOkBL_eq]

theorem sortedOk_sortTree (cmp : String → String → Ordering)
    (htrans : ∀ x y z, cmp x y ≠ Ordering.gt → cmp y z ≠ Ordering.gt → cmp x z ≠ Ordering.gt)
    (htotal : ∀ x y, cmp x y = Ordering.gt → cmp y x ≠ Ordering.gt) :
    ∀ t, sortedOkB (childLEB cmp) (sortTree cmp t) = true := by
  apply TreeNode.ind (P := fun t => sortedOkB (childLEB cmp) (sortTree cmp t) = true)
  intro d cs ih
  rw [sortTree_eq, sortedOkB_unfold]
  simp only [Bool.and_eq_true]
  constructor
  · -- the sorted children satisfy the adjacent-pairs check
    letI : IsTrans TreeNode (childLEP cmp) := ⟨fun a b c => childLEP_trans cmp htrans a b c⟩
    letI : IsTotal TreeNode (childLEP cmp) := ⟨fun a b => childLEP_total cmp htotal a b⟩
    have hs : List.Pairwise (childLEP cmp) (cs.insertionSort (childLEP cmp)) :=
      List.sorted_insertionSort (childLEP cmp) cs
    have hs2 : List.Pairwise (childLEP cmp)
        ((cs.insertionSort (childLEP cmp)).map (sortTree cmp)) := by
      rw [List.pairwise_map]
      apply hs.imp
      intro a b hab
      have h1 : (sortTree cmp a).data.type = a.data.type := by rw [sortTree_data]
      have h2 : (sortTree cmp a).data.name = a.data.name := by rw [sortTree_data]
      have h3 : (sortTree cmp b).data.type = b.data.type := by rw [sortTree_data]
      have h4 : (sortTree cmp b).data.name = b.data.name := by rw [sortTree_data]
      unfold childLEP at hab ⊢
      rw [childCompare_congr cmp h1 h2 h3 h4]
      exact hab
    exact chainOkB_of_pairwise cmp _ hs2
  · simp only [List.all_eq_true]
    intro c' hc'
    simp only [List.mem_map] at hc'
    obtain ⟨c, hc, rfl⟩ := hc'
    exact ih c ((List.mem_insertionSort _).mp hc)

theorem chainOkB_map_congr (le : TreeNode → TreeNode → Bool) (f : TreeNode → TreeNode)
    (hcong : ∀ a b, le (f a) (f b) = le a b) :
    ∀ (cs : List TreeNode), chainOkB le (cs.map f) = chainOkB le cs := by
  intro cs
  induction cs with
  | nil => rfl
  | cons a l ih =>
    cases l with
    | nil => rfl
    | cons b l2 =>
      simp only [List.map_cons, chainOkB]
      simp only [List.map_cons] at ih
      rw [hcong, ih]

theorem sortedOk_calcCounts (cmp : String → String → Ordering) :
    ∀ t, sortedOkB (childLEB cmp) t = true →
      sortedOkB (childLEB cmp) (calcCounts t) = true := by
  apply TreeNode.ind (P := fun t => sortedOkB (childLEB cmp) t = true →
    sortedOkB (childLEB cmp) (calcCounts t) = true)
  intro d cs ih h
  rw [sortedOkB_unfold] at h
  simp only [Bool.and_eq_true] at h
  obtain ⟨hchain, hall⟩ := h
  have hcong : ∀ a b, childLEB cmp (calcCounts a) (calcCounts b) = childLEB cmp a b := by
    intro a b
    have hcc : childCompare cmp (calcCounts a) (calcCounts b) = childCompare cmp a b :=
      childCompare_congr cmp (calcCounts_data_type a).1 (calcCounts_data_type a).2.1
        (calcCounts_data_type b).1 (calcCounts_data_type b).2.1
    unfold childLEB
    apply decide_eq_decide.mpr
    unfold childLEP
    rw [hcc]
  simp only [calcCounts]
  by_cases hf : d.type = NodeType.file
  · rw [if_pos hf, sortedOkB_unfold]
    simp only [Bool.and_eq_true]
    exact ⟨hchain, hall⟩
  · rw [if_neg hf, sortedOkB_unfold]
    simp only [Bool.and_eq_true, calcCountsL_eq]
    constructor
    · rw [chainOkB_map_congr _ _ hcong]
      exact hchain
    · simp only [List.all_eq_true] at hall ⊢
      intro c' hc'
      simp only [List.mem_map] at hc'
      obtain ⟨c, hc, rfl⟩ := hc'
      exact ih c hc (hall c hc)

theorem sortedOk_buildFromTags (idx : VaultIndexer) (cmp : String → String → Ordering)
    (rootTag : Option String)
    (htrans : ∀ x y z, cmp x y ≠ Ordering.gt → cmp y z ≠ Ordering.gt → cmp x z ≠ Ordering.gt)
    (htotal : ∀ x y, cmp x y = Ordering.gt → cmp y x ≠ Ordering.gt) :
    sortedOkB (childLEB cmp) (TreeBuilder.buildFromTags idx cmp rootTag) = true := by
  unfold TreeBuilder.buildFromTags
  exact sortedOk_calcCounts cmp _ (sortedOk_sortTree cmp htrans htotal _)

/-! ## The empty-candidate-set case (claim C7) -/

theorem buildFromTags_empty (idx : VaultIndexer) (cmp : String → String → Ordering)
    (rootTag : Option String) (h : TreeBuilder.candidateTags idx rootTag = []) :
    TreeBuilder.buildFromTags idx cmp rootTag =
      TreeNode.mk { TreeBuilder.rootData with fileCount := 0 } [] := by
  unfold TreeBuilder.buildFromTags
  rw [h]
  simp only [List.insertionSort]
  unfold TreeBuilder.buildRaw
  simp only [List.filter_nil, List.map_nil]
  rw [sortTree_eq]
  simp only [List.insertionSort, List.map_nil]
  simp only [calcCounts]
  rw [if_neg (by simp [TreeBuilder.rootData])]
  simp [calcCountsL, TreeBuilder.rootData]

/-! ## Query-builder lemmas (claims C5, C8, C9) -/

theorem buildQuery_foldl (cfg : HierarchyConfig) :
    ∀ (chain : List NodeData) (acc : List String),
      chain.foldl
        (fun filters n =>
          match SearchQueryBuilder.buildNodeFilter cfg n with
          | some f => f :: filters
          | none => filters) acc =
      (chain.filterMap (SearchQueryBuilder.buildNodeFilter cfg)).reverse ++ acc := by
  intro chain
  induction chain with
  | nil => intro acc; simp
  | cons n chain ih =>
    intro acc
    simp only [List.foldl_cons, List.filterMap_cons]
    cases h : SearchQueryBuilder.buildNodeFilter cfg n with
    | none => simp [ih acc]
    | some f => simp [ih (f :: acc)]

theorem buildQuery_eq_filterMap (cfg : HierarchyConfig) (chain : List NodeData) :
    SearchQueryBuilder.buildQuery cfg chain =
      String.intercalate " "
        (chain.reverse.filterMap (SearchQueryBuilder.buildNodeFilter cfg)) := by
  unfold SearchQueryBuilder.buildQuery
  rw [buildQuery_foldl cfg chain []]
  rw [List.append_nil, List.filterMap_reverse]

/-- Well-formedness of a chain node for the spec comparison: tag nodes do not
carry an empty tag path, property nodes do not carry an empty key or a `null`
value (the degenerate metadata the source filters out by JS falsiness). -/
def wfNode (n : NodeData) : Prop :=
  (n.type = NodeType.tag → n.metadata.bind (·.tagPath) ≠ some "") ∧
  (n.type = NodeType.propertyGroup →
    n.metadata.bind (·.propertyKey) ≠ some "" ∧
    n.metadata.bind (·.propertyValue) ≠ some JSValue.nullV)

instance (n : NodeData) : Decidable (wfNode n) := by
  unfold wfNode
  infer_instance

theorem buildNodeFilter_eq_specFragment (cfg : HierarchyConfig) (n : NodeData)
    (h : wfNode n) : SearchQueryBuilder.buildNodeFilter cfg n = specFragment n := by
  obtain ⟨htag, hprop⟩ := h
  unfold SearchQueryBuilder.buildNodeFilter specFragment
  cases hty : n.type with
  | file => rfl
  | tag =>
    unfold SearchQueryBuilder.buildTagFilter
    cases hp : n.metadata.bind (·.tagPath) with
    | none => rfl
    | some p =>
      have hne : p ≠ "" := by
        intro hh
        exact htag hty (by rw [hp, hh])
      dsimp only
      rw [if_neg hne]
  | propertyGroup =>
    unfold SearchQueryBuilder.buildPropertyFilter
    cases hk : n.metadata.bind (·.propertyKey) with
    | none => rfl
    | some k =>
      have hkne : k ≠ "" := by
        intro hh
        exact (hprop hty).1 (by rw [hk, hh])
      dsimp only
      rw [if_neg hkne]
      cases hv : n.metadata.bind (·.propertyValue) with
      | none => rfl
      | some v =>
        cases v with
        | nullV => exact absurd (by rw [hv]) (hprop hty).2
        | str s => rfl
        | num m => rfl
        | bool b => rfl

/-- The characterization of skipped fragments (claim C9), split out per type. -/
theorem buildNodeFilter_eq_none_iff (cfg : HierarchyConfig) (n : NodeData) :
    SearchQueryBuilder.buildNodeFilter cfg n = none ↔
      (n.type = NodeType.file ∨
       (n.type = NodeType.tag ∧
         (n.metadata.bind (·.tagPath) = none ∨ n.metadata.bind (·.tagPath) = some "")) ∨
       (n.type = NodeType.propertyGroup ∧
         (n.metadata.bind (·.propertyKey) = none ∨
          n.metadata.bind (·.propertyKey) = some "" ∨
          n.metadata.bind (·.propertyValue) = none ∨
          n.metadata.bind (·.propertyValue) = some JSValue.nullV))) := by
  unfold SearchQueryBuilder.buildNodeFilter
  cases hty : n.type with
  | file => simp [hty]
  | tag =>
    unfold SearchQueryBuilder.buildTagFilter
    cases hp : n.metadata.bind (·.tagPath) with
    | none => simp [hty]
    | some p =>
      by_cases hpe : p = ""
      · subst hpe
        simp [hty]
      · simp [hty, hpe]
  | propertyGroup =>
    unfold SearchQueryBuilder.buildPropertyFilter
    cases hk : n.metadata.bind (·.propertyKey) with
    | none => simp [hty]
    | some k =>
      by_cases hke : k = ""
      · subst hke
        simp [hty]
      · dsimp only
        rw [if_neg hke]
        cases hv : n.metadata.bind (·.propertyValue) with
        | none => simp [hty, hke]
        | some v =>
          cases v with
          | nullV => simp [hty, hke]
          | str s => simp [hty, hke]
          | num m => simp [hty, hke]
          | bool b => simp [hty, hke]

/-! ## Per-node file placement (claims C1, C3)

`fileChildFiles` lists the `files` arrays of a node's file-node children;
`nodeFilesInv` states that, at every tag node, these are exactly (up to order)
the singletons of the files `addFileNodes` attaches under that tag, and that
nodes without a tag path (the root and file nodes) have no file children. -/

def fileChildFiles (n : TreeNode) : List (List TFile) :=
  n.children.filterMap
    (fun c => if c.data.type = NodeType.file then some c.data.files else none)

def nodeFilesInv (idx : VaultIndexer) (n : TreeNode) : Prop :=
  match tagPathOf n with
  | some t => List.Perm (fileChildFiles n) ((filesAttachedTo idx t).map (fun f => [f]))
  | none => fileChildFiles n = []

theorem hasFileLeaf_iff (f : TFile) (n : TreeNode) :
    hasFileLeaf f n = true ↔ [f] ∈ fileChildFiles n := by
  unfold hasFileLeaf fileChildFiles
  rw [List.any_eq_true]
  simp only [List.mem_filterMap]
  constructor
  · intro ⟨c, hc, hp⟩
    simp only [Bool.and_eq_true, decide_eq_true_eq] at hp
    exact ⟨c, hc, by simp [hp.1, hp.2]⟩
  · intro ⟨c, hc, hp⟩
    by_cases ht : c.data.type = NodeType.file
    · rw [if_pos ht] at hp
      refine ⟨c, hc, ?_⟩
      simp only [Bool.and_eq_true, decide_eq_true_eq]
      exact ⟨ht, by injection hp⟩
    · rw [if_neg ht] at hp
      cases hp

theorem mem_allNodes_self (t : TreeNode) : t ∈ allNodes t := by
  cases t with
  | mk d cs =>
    simp only [allNodes]
    exact List.mem_cons_self _ _

theorem allNodes_unfold (d : NodeData) (cs : List TreeNode) :
    allNodes (TreeNode.mk d cs) = TreeNode.mk d cs :: (cs.map allNodes).flatten := by
  simp only [allNodes, allNodesL_eq]

theorem mem_allNodes_of_child {n c : TreeNode} {d : NodeData} {cs : List TreeNode}
    (hc : c ∈ cs) (hn : n ∈ allNodes c) : n ∈ allNodes (TreeNode.mk d cs) := by
  rw [allNodes_unfold]
  apply List.mem_cons_of_mem
  rw [List.mem_flatten]
  exact ⟨allNodes c, List.mem_map_of_mem allNodes hc, hn⟩

theorem tagPathOf_createTagNode (t : String) (files : List TFile) (k : Nat) :
    tagPathOf (createTagNode t files k) = some t := rfl

theorem nodeFilesInv_buildSubtreeF (idx : VaultIndexer) (C : List String) :
    ∀ (fuel : Nat) (t : String),
      ∀ n ∈ allNodes (TreeBuilder.buildSubtreeF idx C fuel t), nodeFilesInv idx n := by
  intro fuel
  induction fuel with
  | zero =>
    intro t n hn
    simp only [TreeBuilder.buildSubtreeF] at hn
    rw [allNodes_unfold] at hn
    rcases List.mem_cons.mp hn with h1 | h1
    · subst h1
      unfold nodeFilesInv
      have htp : tagPathOf (TreeNode.mk (createTagNode t [] (tagDepth t)).data
          ((filesAttachedTo idx t).map (fun f => createFileNode f (tagDepth t + 1)))) = some t := rfl
      rw [htp]
      unfold fileChildFiles
      simp only [TreeNode.children, List.filterMap_map]
      have : ∀ f : TFile,
          ((fun c => if c.data.type = NodeType.file then some c.data.files else none) ∘
            (fun f => createFileNode f (tagDepth t + 1))) f = some [f] := by
        intro f
        rfl
      rw [List.filterMap_eq_map_iff_forall_eq_some.mpr (fun f _ => this f)]
    · rw [List.mem_flatten] at h1
      obtain ⟨l, hl, hn2⟩ := h1
      rw [List.mem_map] at hl
      obtain ⟨c, hc, rfl⟩ := hl
      rw [List.mem_map] at hc
      obtain ⟨f, hf, rfl⟩ := hc
      simp only [createFileNode, allNodes_unfold, List.map_nil, List.flatten_nil] at hn2
      rcases List.mem_cons.mp hn2 with h2 | h2
      · subst h2
        unfold nodeFilesInv tagPathOf fileChildFiles
        simp [TreeNode.data, TreeNode.children]
      · cases h2
  | succ fuel ih =>
    intro t n hn
    simp only [TreeBuilder.buildSubtreeF] at hn
    rw [allNodes_unfold] at hn
    rcases List.mem_cons.mp hn with h1 | h1
    · subst h1
      unfold nodeFilesInv
      have htp : tagPathOf (TreeNode.mk (createTagNode t [] (tagDepth t)).data
          (((C.filter (fun u => attachOf C u = Attach.toTag t)).map
              (TreeBuilder.buildSubtreeF idx C fuel)) ++
            ((filesAttachedTo idx t).map (fun f => createFileNode f (tagDepth t + 1))))) =
          some t := rfl
      rw [htp]
      unfold fileChildFiles
      simp only [TreeNode.children, List.filterMap_append, List.filterMap_map]
      have h2 : ∀ u, ((fun c => if c.data.type = NodeType.file then some c.data.files else none) ∘
          TreeBuilder.buildSubtreeF idx C fuel) u = none := by
        intro u
        cases fuel <;> rfl
      have h3 : ∀ f : TFile,
          ((fun c => if c.data.type = NodeType.file then some c.data.files else none) ∘
            (fun f => createFileNode f (tagDepth t + 1))) f = some [f] := by
        intro f
        rfl
      rw [List.filterMap_eq_nil_iff.mpr (fun u _ => h2 u)]
      rw [List.filterMap_eq_map_iff_forall_eq_some.mpr (fun f _ => h3 f)]
      simp
    · rw [List.mem_flatten] at h1
      obtain ⟨l, hl, hn2⟩ := h1
      rw [List.mem_map] at hl
      obtain ⟨c, hc, rfl⟩ := hl
      rw [List.mem_append] at hc
      rcases hc with hc | hc
      · rw [List.mem_map] at hc
        obtain ⟨u, hu, rfl⟩ := hc
        exact ih u n hn2
      · rw [List.mem_map] at hc
        obtain ⟨f, hf, rfl⟩ := hc
        simp only [createFileNode, allNodes_unfold, List.map_nil, List.flatten_nil] at hn2
        rcases List.mem_cons.mp hn2 with h2 | h2
        · subst h2
          unfold nodeFilesInv tagPathOf fileChildFiles
          simp [TreeNode.data, TreeNode.children]
        · cases h2

theorem nodeFilesInv_buildRaw (idx : VaultIndexer) (C : List String) :
    ∀ n ∈ allNodes (TreeBuilder.buildRaw idx C), nodeFilesInv idx n := by
  intro n hn
  unfold TreeBuilder.buildRaw at hn
  rw [allNodes_unfold] at hn
  rcases List.mem_cons.mp hn with h1 | h1
  · subst h1
    unfold nodeFilesInv
    have htp : tagPathOf (TreeNode.mk TreeBuilder.rootData
        ((C.filter (fun u => attachOf C u = Attach.toRoot)).map
          (TreeBuilder.buildSubtreeF idx C (maxTagDepth C)))) = none := rfl
    rw [htp]
    unfold fileChildFiles
    simp only [TreeNode.children, List.filterMap_map]
    apply List.filterMap_eq_nil_iff.mpr
    intro u _
    cases h : maxTagDepth C <;> rfl
  · rw [List.mem_flatten] at h1
    obtain ⟨l, hl, hn2⟩ := h1
    rw [List.mem_map] at hl
    obtain ⟨c, hc, rfl⟩ := hl
    rw [List.mem_map] at hc
    obtain ⟨u, hu, rfl⟩ := hc
    exact nodeFilesInv_buildSubtreeF idx C (maxTagDepth C) u n hn2

theorem fileChildFiles_sortTree (cmp : String → String → Ordering) (d : NodeData)
    (cs : List TreeNode) :
    List.Perm (fileChildFiles (sortTree cmp (TreeNode.mk d cs)))
      (fileChildFiles (TreeNode.mk d cs)) := by
  rw [sortTree_eq]
  unfold fileChildFiles
  simp only [TreeNode.children, List.filterMap_map]
  have hcong : ∀ c, ((fun c => if c.data.type = NodeType.file then some c.data.files else none) ∘
      sortTree cmp) c =
      (fun c => if c.data.type = NodeType.file then some c.data.files else none) c := by
    intro c
    simp only [Function.comp_apply, sortTree_data]
  rw [List.filterMap_congr (fun c _ => hcong c)]
  exact (List.perm_insertionSort _ cs).filterMap _

theorem nodeFilesInv_sortTree (cmp : String → String → Ordering) (idx : VaultIndexer) :
    ∀ t, (∀ n ∈ allNodes t, nodeFilesInv idx n) →
      ∀ n ∈ allNodes (sortTree cmp t), nodeFilesInv idx n := by
  apply TreeNode.ind (P := fun t => (∀ n ∈ allNodes t, nodeFilesInv idx n) →
    ∀ n ∈ allNodes (sortTree cmp t), nodeFilesInv idx n)
  intro d cs ih hinv n hn
  rw [sortTree_eq] at hn
  rw [allNodes_unfold] at hn
  rcases List.mem_cons.mp hn with h1 | h1
  · subst h1
    have hroot := hinv (TreeNode.mk d cs) (mem_allNodes_self _)
    unfold nodeFilesInv at hroot ⊢
    have hperm : List.Perm
        (fileChildFiles (TreeNode.mk d ((cs.insertionSort (childLEP cmp)).map (sortTree cmp))))
        (fileChildFiles (TreeNode.mk d cs)) := by
      have := fileChildFiles_sortTree cmp d cs
      rw [sortTree_eq] at this
      exact this
    have htp : tagPathOf (TreeNode.mk d ((cs.insertionSort (childLEP cmp)).map (sortTree cmp))) =
        tagPathOf (TreeNode.mk d cs) := rfl
    rw [htp]
    cases hcase : tagPathOf (TreeNode.mk d cs) with
    | some t2 =>
      rw [hcase] at hroot
      exact hperm.trans hroot
    | none =>
      rw [hcase] at hroot
      rw [hroot] at hperm
      exact List.Perm.eq_nil hperm
  · rw [List.mem_flatten] at h1
    obtain ⟨l, hl, hn2⟩ := h1
    rw [List.mem_map] at hl
    obtain ⟨c', hc', rfl⟩ := hl
    rw [List.mem_map] at hc'
    obtain ⟨c, hc, rfl⟩ := hc'
    have hcs : c ∈ cs := (List.mem_insertionSort _).mp hc
    exact ih c hcs (fun m hm => hinv m (mem_allNodes_of_child hcs hm)) n hn2

theorem fileChildFiles_calcCounts (d : NodeData) (cs : List TreeNode) :
    fileChildFiles (calcCounts (TreeNode.mk d cs)) = fileChildFiles (TreeNode.mk d cs) := by
  unfold fileChildFiles
  rw [calcCounts_children]
  by_cases hf : d.type = NodeType.file
  · rw [if_pos hf]
    rfl
  · rw [if_neg hf]
    simp only [TreeNode.children, List.filterMap_map]
    apply List.filterMap_congr
    intro c _
    simp only [Function.comp_apply]
    obtain ⟨h1, _, h3, _⟩ := calcCounts_data_type c
    rw [h1, h3]

theorem tagPathOf_calcCounts (t : TreeNode) : tagPathOf (calcCounts t) = tagPathOf t := by
  unfold tagPathOf
  rw [(calcCounts_data_type t).2.2.2]

theorem nodeFilesInv_calcCounts (idx : VaultIndexer) :
    ∀ t, (∀ n ∈ allNodes t, nodeFilesInv idx n) →
      ∀ n ∈ allNodes (calcCounts t), nodeFilesInv idx n := by
  apply TreeNode.ind (P := fun t => (∀ n ∈ allNodes t, nodeFilesInv idx n) →
    ∀ n ∈ allNodes (calcCounts t), nodeFilesInv idx n)
  intro d cs ih hinv n hn
  have hch := calcCounts_children d cs
  cases hcc : calcCounts (TreeNode.mk d cs) with
  | mk d' cs' =>
    rw [hcc] at hch
    simp only [TreeNode.children] at hch
    rw [hcc] at hn
    rw [allNodes_unfold] at hn
    rcases List.mem_cons.mp hn with h1 | h1
    · subst h1
      have hroot := hinv (TreeNode.mk d cs) (mem_allNodes_self _)
      unfold nodeFilesInv at hroot ⊢
      have htp : tagPathOf (TreeNode.mk d' cs') = tagPathOf (TreeNode.mk d cs) := by
        rw [← hcc]
        exact tagPathOf_calcCounts _
      have hfc : fileChildFiles (TreeNode.mk d' cs') = fileChildFiles (TreeNode.mk d cs) := by
        rw [← hcc]
        exact fileChildFiles_calcCounts d cs
      rw [htp, hfc]
      exact hroot
    · rw [hch] at h1
      by_cases hf : d.type = NodeType.file
      · rw [if_pos hf] at h1
        rw [List.mem_flatten] at h1
        obtain ⟨l, hl, hn2⟩ := h1
        rw [List.mem_map] at hl
        obtain ⟨c, hc, rfl⟩ := hl
        exact hinv n (mem_allNodes_of_child hc hn2)
      · rw [if_neg hf] at h1
        rw [List.mem_flatten] at h1
        obtain ⟨l, hl, hn2⟩ := h1
        rw [List.mem_map] at hl
        obtain ⟨c', hc', rfl⟩ := hl
        rw [List.mem_map] at hc'
        obtain ⟨c, hc, rfl⟩ := hc'
        exact ih c hc (fun m hm => hinv m (mem_allNodes_of_child hc hm)) n hn2

theorem nodeFilesInv_buildFromTags (idx : VaultIndexer) (cmp : String → String → Ordering)
    (rootTag : Option String) :
    ∀ n ∈ allNodes (TreeBuilder.buildFromTags idx cmp rootTag), nodeFilesInv idx n := by
  unfold TreeBuilder.buildFromTags
  apply nodeFilesInv_calcCounts
  apply nodeFilesInv_sortTree
  apply nodeFilesInv_buildRaw

theorem placementPaths_eq_of_inv (idx : VaultIndexer) (f : TFile) :
    ∀ (ns : List TreeNode), (∀ n ∈ ns, nodeFilesInv idx n) →
      ns.filterMap (fun n => if hasFileLeaf f n then tagPathOf n else none) =
        (ns.filterMap tagPathOf).filter (fun t => decide (f ∈ filesAttachedTo idx t)) := by
  intro ns
  induction ns with
  | nil => intro _; rfl
  | cons n ns ih =>
    intro hinv
    have hn := hinv n (List.mem_cons_self _ _)
    have hns : ∀ m ∈ ns, nodeFilesInv idx m := fun m hm => hinv m (List.mem_cons_of_mem n hm)
    unfold nodeFilesInv at hn
    cases htp : tagPathOf n with
    | none =>
      by_cases hfl : hasFileLeaf f n = true
      · simp [List.filterMap_cons, htp, hfl, ih hns]
      · simp [List.filterMap_cons, htp, hfl, ih hns]
    | some t =>
      rw [htp] at hn
      have hmem : hasFileLeaf f n = true ↔ f ∈ filesAttachedTo idx t := by
        rw [hasFileLeaf_iff]
        rw [hn.mem_iff]
        constructor
        · intro hin
          rw [List.mem_map] at hin
          obtain ⟨g, hg, hgeq⟩ := hin
          have : g = f := by injection hgeq
          rw [← this]
          exact hg
        · intro hin
          exact List.mem_map_of_mem _ hin
      by_cases hh : f ∈ filesAttachedTo idx t
      · simp [List.filterMap_cons, htp, hmem.mpr hh, hh, List.filter_cons, ih hns]
      · have hfl : ¬ hasFileLeaf f n = true := fun hx => hh (hmem.mp hx)
        simp [List.filterMap_cons, htp, hfl, hh, List.filter_cons, ih hns]

/-- The closed form of C3's placement set on the final tree. -/
theorem placementPaths_buildFromTags (idx : VaultIndexer) (cmp : String → String → Ordering)
    (rootTag : Option String) (f : TFile) :
    placementPaths f (TreeBuilder.buildFromTags idx cmp rootTag) =
      (tagPathsIn (TreeBuilder.buildFromTags idx cmp rootTag)).filter
        (fun t => decide (f ∈ filesAttachedTo idx t)) := by
  unfold placementPaths tagPathsIn
  exact placementPaths_eq_of_inv idx f _ (nodeFilesInv_buildFromTags idx cmp rootTag)

/-- Membership in `filesToAdd` for a tag node, for a well-formed index: the
file carries the tag, and none of its tags strictly string-extends it. -/
theorem mem_filesToAddFor_iff (idx : VaultIndexer) (hwf : idx.wf) (f : TFile) (t : String) :
    f ∈ filesToAddFor idx t ↔
      (t ∈ idx.getFileTags f ∧
        ∀ u ∈ idx.getFileTags f, strStartsWith u t = true → strLen u ≤ strLen t) := by
  unfold filesToAddFor
  rw [List.mem_filter]
  have hfst : f ∈ idx.getFilesWithTag t ↔ t ∈ idx.getFileTags f := by
    unfold VaultIndexer.getFilesWithTag VaultIndexer.getFileTags
    rw [List.mem_map]
    constructor
    · intro ⟨e, he, hef⟩
      rw [List.mem_filter] at he
      obtain ⟨hent, htag⟩ := he
      have htag2 : t ∈ e.2 := of_decide_eq_true htag
      cases hfind : idx.entries.find? (fun e => e.1 = f) with
      | none =>
        exfalso
        have : (idx.entries.find? (fun e => e.1 = f)).isSome := by
          rw [List.find?_isSome]
          exact ⟨e, hent, by simp [hef]⟩
        rw [hfind] at this
        cases this
      | some e' =>
        have he'mem : e' ∈ idx.entries := List.mem_of_find?_eq_some hfind
        have he'f : e'.1 = f := by
          have hp := List.find?_some hfind
          simp only [decide_eq_true_eq] at hp
          exact hp
        have heq : e = e' := by
          apply List.inj_on_of_nodup_map hwf hent he'mem
          rw [hef, he'f]
        rw [← heq]
        exact htag2
    · intro hin
      cases hfind : idx.entries.find? (fun e => e.1 = f) with
      | none =>
        rw [hfind] at hin
        cases hin
      | some e' =>
        rw [hfind] at hin
        refine ⟨e', ?_, ?_⟩
        · rw [List.mem_filter]
          exact ⟨List.mem_of_find?_eq_some hfind, decide_eq_true hin⟩
        · have hp := List.find?_some hfind
          simp only [decide_eq_true_eq] at hp
          exact hp
  rw [hfst]
  constructor
  · intro ⟨h1, h2⟩
    have := of_decide_eq_true h2
    exact ⟨h1, (mostSpecificTag_eq_self_iff _ _).mp this⟩
  · intro ⟨h1, h2⟩
    exact ⟨h1, decide_eq_true ((mostSpecificTag_eq_self_iff _ _).mpr h2)⟩

/-! ## Reachability of candidate tags (claim C4) -/

theorem mk_data_self (t : String) : String.mk t.data = t := rfl

theorem splitSlashC_parentKey {t : String} (h2 : 2 ≤ tagDepth t) :
    splitSlashC (parentKey t).data = (splitSlashC t.data).dropLast := by
  unfold parentKey
  rw [show (String.mk (joinSlashC (splitSlashC t.data).dropLast)).data
      = joinSlashC (splitSlashC t.data).dropLast from rfl]
  apply splitSlashC_joinSlashC
  · unfold tagDepth at h2
    intro hnil
    have := congrArg List.length hnil
    rw [List.length_dropLast] at this
    simp at this
    omega
  · intro s hs
    exact no_slash_of_mem_splitSlashC t.data ((List.dropLast_sublist _).subset hs)

theorem parentKey_of_depth_one {t : String} (h1 : tagDepth t = 1) : parentKey t = "" := by
  unfold parentKey
  unfold tagDepth at h1
  cases hsp : splitSlashC t.data with
  | nil => exact absurd hsp (splitSlashC_ne_nil _)
  | cons a l =>
    rw [hsp] at h1
    simp at h1
    subst h1
    simp [joinSlashC]

theorem ancestorChainOf_depth_one {t : String} (h1 : tagDepth t = 1) :
    ancestorChainOf t = [t] := by
  unfold ancestorChainOf
  rw [h1]
  simp only [List.range_succ, List.range_zero, List.nil_append, List.map_cons, List.map_nil]
  congr 1
  rw [List.take_of_length_le (by unfold tagDepth at h1; omega)]
  rw [joinSlashC_splitSlashC]

theorem ancestorChainOf_append {t : String} (h2 : 2 ≤ tagDepth t) :
    ancestorChainOf t = ancestorChainOf (parentKey t) ++ [t] := by
  have hpk := splitSlashC_parentKey h2
  have hdpk : tagDepth (parentKey t) = tagDepth t - 1 := by
    unfold tagDepth
    rw [hpk, List.length_dropLast]
  unfold ancestorChainOf
  rw [hdpk]
  have hsplit : tagDepth t = (tagDepth t - 1) + 1 := by omega
  rw [show List.range (tagDepth t) = List.range ((tagDepth t - 1) + 1) from by rw [← hsplit]]
  rw [List.range_succ, List.map_append]
  congr 1
  · apply List.map_congr_left
    intro i hi
    rw [List.mem_range] at hi
    congr 1
    rw [hpk]
    rw [List.dropLast_eq_take]
    rw [List.take_take]
    have hlen2 : i < (splitSlashC t.data).length - 1 := hi
    rw [Nat.min_eq_left (by omega : i + 1 ≤ (splitSlashC t.data).length - 1)]
  · simp only [List.map_cons, List.map_nil]
    congr 1
    rw [List.take_of_length_le (by unfold tagDepth at h2 ⊢; omega)]
    rw [joinSlashC_splitSlashC]

theorem ancestorChainOf_ne_nil (t : String) : ancestorChainOf t ≠ [] := by
  unfold ancestorChainOf
  have := tagDepth_pos t
  intro h
  have := congrArg List.length h
  simp at this
  omega

theorem ancestorChainOf_getLastD (t : String) : (ancestorChainOf t).getLastD "" = t := by
  by_cases h2 : 2 ≤ tagDepth t
  · rw [ancestorChainOf_append h2]
    exact List.getLastD_concat _ _ _
  · have h1 : tagDepth t = 1 := by
      have := tagDepth_pos t
      omega
    rw [ancestorChainOf_depth_one h1]
    rfl

/-- The attachment chain condition along a list of tags: each tag's parent key
is the previous tag, each is a candidate, and each parent is nonempty (so the
map lookup resolves to that parent's tag node). -/
def chainCond (C : List String) : String → List String → Prop
  | _, [] => True
  | t, p :: ps => parentKey p = t ∧ p ∈ C ∧ t ≠ "" ∧ chainCond C p ps

theorem chainCond_concat (C : List String) :
    ∀ (rest : List String) (x p t : String), chainCond C x rest →
      (x :: rest).getLastD "" = p → parentKey t = p → t ∈ C → p ≠ "" →
      chainCond C x (rest ++ [t]) := by
  intro rest
  induction rest with
  | nil =>
    intro x p t hcc hlast hpk htC hpne
    have hx : x = p := by simpa using hlast
    subst hx
    exact ⟨hpk, htC, hpne, trivial⟩
  | cons q rest' ih =>
    intro x p t hcc hlast hpk htC hpne
    obtain ⟨h1, h2, h3, h4⟩ := hcc
    refine ⟨h1, h2, h3, ?_⟩
    apply ih q p t h4 ?_ hpk htC hpne
    rw [List.getLastD_cons, List.getLastD_cons] at hlast
    rw [List.getLastD_cons]
    exact hlast

theorem mem_of_getLastD {l : List String} (h : l ≠ []) : l.getLastD "" ∈ l := by
  cases hl : l.reverse with
  | nil =>
    exfalso
    apply h
    have := congrArg List.reverse hl
    simpa using this
  | cons a as =>
    have hl2 : l = (a :: as).reverse := by
      have := congrArg List.reverse hl
      simpa using this
    rw [hl2]
    simp only [List.reverse_cons]
    rw [List.getLastD_concat]
    exact List.mem_append_right _ (List.mem_cons_self _ _)

theorem chain_glue (C : List String) :
    ∀ (n : Nat) (t : String), tagDepth t = n → t ∈ C →
      (∀ p ∈ (ancestorChainOf t).dropLast, p ∈ C ∧ p ≠ "") →
      ∃ p1 rest, ancestorChainOf t = p1 :: rest ∧ attachOf C p1 = Attach.toRoot ∧
        p1 ∈ C ∧ chainCond C p1 rest := by
  intro n
  induction n using Nat.strong_induction_on with
  | _ n ih =>
    intro t hdep htC hyp
    by_cases h2 : 2 ≤ tagDepth t
    · have hchain := ancestorChainOf_append h2
      have hdl : (ancestorChainOf t).dropLast = ancestorChainOf (parentKey t) := by
        rw [hchain]
        exact List.dropLast_concat
      have hpkmem : parentKey t ∈ ancestorChainOf (parentKey t) := by
        have hlast := ancestorChainOf_getLastD (parentKey t)
        have hmem := mem_of_getLastD (ancestorChainOf_ne_nil (parentKey t))
        rw [hlast] at hmem
        exact hmem
      have hpkC : parentKey t ∈ C ∧ parentKey t ≠ "" := by
        apply hyp
        rw [hdl]
        exact hpkmem
      have hdpk : tagDepth (parentKey t) = tagDepth t - 1 := by
        unfold tagDepth
        rw [splitSlashC_parentKey h2, List.length_dropLast]
      have hyp' : ∀ p ∈ (ancestorChainOf (parentKey t)).dropLast, p ∈ C ∧ p ≠ "" := by
        intro p hp
        apply hyp
        rw [hdl]
        exact (List.dropLast_sublist _).subset hp
      obtain ⟨p1, rest, heq, hroot, hp1C, hcc⟩ :=
        ih (tagDepth t - 1) (by omega) (parentKey t) hdpk hpkC.1 hyp'
      refine ⟨p1, rest ++ [t], ?_, hroot, hp1C, ?_⟩
      · rw [hchain, heq]
        rfl
      · apply chainCond_concat C rest p1 (parentKey t) t hcc _ rfl htC hpkC.2
        rw [← heq]
        exact ancestorChainOf_getLastD (parentKey t)
    · have h1 : tagDepth t = 1 := by
        have := tagDepth_pos t
        omega
      refine ⟨t, [], ancestorChainOf_depth_one h1, ?_, htC, trivial⟩
      unfold attachOf
      rw [if_pos (parentKey_of_depth_one h1)]

theorem tagPathOf_buildSubtreeF (idx : VaultIndexer) (C : List String) (fuel : Nat)
    (t : String) : tagPathOf (TreeBuilder.buildSubtreeF idx C fuel t) = some t := by
  cases fuel <;> rfl

theorem hasPathChain_buildSubtreeF (idx : VaultIndexer) (C : List String) :
    ∀ (ps : List String) (t : String) (fuel : Nat), t ∈ C → chainCond C t ps →
      maxTagDepth C ≤ fuel + tagDepth t →
      hasPathChain (TreeBuilder.buildSubtreeF idx C fuel t) ps = true := by
  intro ps
  induction ps with
  | nil =>
    intro t fuel _ _ _
    rfl
  | cons p ps ih =>
    intro t fuel htC hcc hfuel
    obtain ⟨hpk, hpC, htne, hcc'⟩ := hcc
    have hat : attachOf C p = Attach.toTag t := by
      unfold attachOf
      rw [if_neg (by rw [hpk]; exact htne)]
      rw [if_pos (by rw [hpk]; exact htC)]
      rw [hpk]
    have hdp : tagDepth p = tagDepth t + 1 := by
      have hne : parentKey p ≠ "" := by rw [hpk]; exact htne
      have := tagDepth_of_parentKey_ne_empty hne
      rw [hpk] at this
      omega
    have hdple : tagDepth p ≤ maxTagDepth C := tagDepth_le_maxTagDepth hpC
    cases fuel with
    | zero => omega
    | succ fuel =>
      simp only [TreeBuilder.buildSubtreeF]
      unfold hasPathChain
      rw [List.any_eq_true]
      refine ⟨TreeBuilder.buildSubtreeF idx C fuel p, ?_, ?_⟩
      · show TreeBuilder.buildSubtreeF idx C fuel p ∈
          (TreeNode.mk (createTagNode t [] (tagDepth t)).data _).children
        simp only [TreeNode.children]
        apply List.mem_append_left
        apply List.mem_map_of_mem
        rw [List.mem_filter]
        exact ⟨hpC, decide_eq_true hat⟩
      · simp only [Bool.and_eq_true]
        constructor
        · exact decide_eq_true (tagPathOf_buildSubtreeF idx C fuel p)
        · exact ih p fuel hpC hcc' (by omega)

theorem hasPathChain_buildRaw (idx : VaultIndexer) (C : List String) (p1 : String)
    (rest : List String) (hp1 : p1 ∈ C) (hroot : attachOf C p1 = Attach.toRoot)
    (hcc : chainCond C p1 rest) :
    hasPathChain (TreeBuilder.buildRaw idx C) (p1 :: rest) = true := by
  unfold TreeBuilder.buildRaw
  unfold hasPathChain
  rw [List.any_eq_true]
  refine ⟨TreeBuilder.buildSubtreeF idx C (maxTagDepth C) p1, ?_, ?_⟩
  · simp only [TreeNode.children]
    apply List.mem_map_of_mem
    rw [List.mem_filter]
    exact ⟨hp1, decide_eq_true hroot⟩
  · simp only [Bool.and_eq_true]
    constructor
    · exact decide_eq_true (tagPathOf_buildSubtreeF idx C (maxTagDepth C) p1)
    · exact hasPathChain_buildSubtreeF idx C rest p1 (maxTagDepth C) hp1 hcc
        (Nat.le_add_right _ _)

theorem tagPathOf_sortTree (cmp : String → String → Ordering) (t : TreeNode) :
    tagPathOf (sortTree cmp t) = tagPathOf t := by
  unfold tagPathOf
  rw [sortTree_data]

theorem hasPathChain_sortTree (cmp : String → String → Ordering) :
    ∀ (ps : List String) (t : TreeNode), hasPathChain t ps = true →
      hasPathChain (sortTree cmp t) ps = true := by
  intro ps
  induction ps with
  | nil => intro t _; rfl
  | cons p ps ih =>
    intro t h
    cases t with
    | mk d cs =>
      unfold hasPathChain at h
      rw [List.any_eq_true] at h
      obtain ⟨c, hc, hp⟩ := h
      simp only [Bool.and_eq_true] at hp
      simp only [TreeNode.children] at hc
      rw [sortTree_eq]
      unfold hasPathChain
      rw [List.any_eq_true]
      refine ⟨sortTree cmp c, ?_, ?_⟩
      · simp only [TreeNode.children]
        apply List.mem_map_of_mem
        rw [List.mem_insertionSort]
        exact hc
      · simp only [Bool.and_eq_true]
        constructor
        · rw [tagPathOf_sortTree]
          exact hp.1
        · exact ih c hp.2

theorem hasPathChain_calcCounts :
    ∀ (ps : List String) (t : TreeNode), hasPathChain t ps = true →
      hasPathChain (calcCounts t) ps = true := by
  intro ps
  induction ps with
  | nil => intro t _; rfl
  | cons p ps ih =>
    intro t h
    cases t with
    | mk d cs =>
      unfold hasPathChain at h
      rw [List.any_eq_true] at h
      obtain ⟨c, hc, hp⟩ := h
      simp only [Bool.and_eq_true] at hp
      simp only [TreeNode.children] at hc
      cases hcc : calcCounts (TreeNode.mk d cs) with
      | mk d' cs' =>
        have hch := calcCounts_children d cs
        rw [hcc] at hch
        simp only [TreeNode.children] at hch
        unfold hasPathChain
        rw [List.any_eq_true]
        by_cases hf : d.type = NodeType.file
        · rw [if_pos hf] at hch
          refine ⟨c, ?_, ?_⟩
          · simp only [TreeNode.children]
            rw [hch]
            exact hc
          · simp only [Bool.and_eq_true]
            exact ⟨hp.1, hp.2⟩
        · rw [if_neg hf] at hch
          refine ⟨calcCounts c, ?_, ?_⟩
          · simp only [TreeNode.children]
            rw [hch]
            exact List.mem_map_of_mem _ hc
          · simp only [Bool.and_eq_true]
            constructor
            · rw [tagPathOf_calcCounts]
              exact hp.1
            · exact ih c hp.2

/-- Reachability through the full pipeline, given a candidate tag whose whole
proper segment-prefix chain consists of nonempty candidate tags. -/
theorem hasPathChain_buildFromTags (idx : VaultIndexer) (cmp : String → String → Ordering)
    (rootTag : Option String) (t : String)
    (htC : t ∈ TreeBuilder.candidateTags idx rootTag)
    (hanc : ∀ p ∈ (ancestorChainOf t).dropLast,
      p ∈ TreeBuilder.candidateTags idx rootTag ∧ p ≠ "") :
    hasPathChain (TreeBuilder.buildFromTags idx cmp rootTag) (ancestorChainOf t) = true := by
  unfold TreeBuilder.buildFromTags
  have hmem : ∀ x, x ∈ (TreeBuilder.candidateTags idx rootTag).insertionSort depthLE ↔
      x ∈ TreeBuilder.candidateTags idx rootTag := by
    intro x
    exact List.mem_insertionSort _
  obtain ⟨p1, rest, heq, hroot, hp1, hcc⟩ :=
    chain_glue ((TreeBuilder.candidateTags idx rootTag).insertionSort depthLE)
      (tagDepth t) t rfl ((hmem t).mpr htC)
      (fun p hp => ⟨(hmem p).mpr (hanc p hp).1, (hanc p hp).2⟩)
  rw [heq]
  apply hasPathChain_calcCounts
  apply hasPathChain_sortTree
  exact hasPathChain_buildRaw idx _ p1 rest hp1 hroot hcc

/-! ## Concrete fixtures for counterexamples and witnesses -/

def exFile : TFile := ⟨"doc.md", "doc"⟩

def exFile2 : TFile := ⟨"doc2.md", "doc2"⟩

/-- A trivially consistent model of the host locale comparison. -/
def cmpEq : String → String → Ordering := fun _ _ => Ordering.eq

instance (idx : VaultIndexer) : Decidable idx.wf := by
  unfold VaultIndexer.wf
  infer_instance

def exCfg : HierarchyConfig :=
  { name := "Test Config"
    levels := [HierarchyLevel.property "status" true false,
               HierarchyLevel.property "priority" true false,
               HierarchyLevel.tag "project" (-1) false] }

def propNodeOf (k : String) (v : JSValue) : NodeData :=
  { id := "prop:" ++ k, name := k, type := NodeType.propertyGroup, depth := 0,
    files := [], fileCount := 0,
    metadata := some { propertyKey := some k, propertyValue := some v } }

/-- The ancestor chain of the repository's own three-level query test: a tag
node for `project/backend/api` under property groups `priority = high` and
`status = active`. -/
def exChain : List NodeData :=
  [{ id := "tag:project/backend/api", name := "api", type := NodeType.tag, depth := 2,
     files := [], fileCount := 5, metadata := some { tagPath := some "project/backend/api" } },
   { id := "prop:priority:high", name := "high", type := NodeType.propertyGroup, depth := 1,
     files := [], fileCount := 10,
     metadata := some { propertyKey := some "priority", propertyValue := some (JSValue.str "high") } },
   { id := "prop:status:active", name := "active", type := NodeType.propertyGroup, depth := 0,
     files := [], fileCount := 20,
     metadata := some { propertyKey := some "status", propertyValue := some (JSValue.str "active") } }]

/-! ## Claim theorems -/

/-- C1 (code bug): a document is NOT always placed under the deepest candidate
tag it possesses.  `addFileNodes` suppresses a placement whenever another file
tag string-extends the tag path without a `"/"` boundary: for a document with
tags `{"a", "ab"}` and a tag level scoped to root `"a"`, the candidate set is
`["a"]` and the node `a` is built, yet the document is placed nowhere (zero
file leaves, root count 0), because `"ab".startsWith("a")` makes the
most-specific scan pick `"ab"`, which the code's own comment describes as "a
more nested version of this tag" although it is not.  The claim's own example
(tags `{"a", "a/b", "a/b/c"}`, root `"a"`) does behave as stated: the document
lands only under `a/b/c`. -/
theorem c1_failing_input_eval :
    TreeBuilder.candidateTags ⟨[(exFile, ["a", "ab"])]⟩ (some "a") = ["a"] ∧
    tagPathsIn (TreeBuilder.buildFromTags ⟨[(exFile, ["a", "ab"])]⟩ cmpEq (some "a")) = ["a"] ∧
    placementPaths exFile
      (TreeBuilder.buildFromTags ⟨[(exFile, ["a", "ab"])]⟩ cmpEq (some "a")) = [] ∧
    leafCountFor exFile
      (TreeBuilder.buildFromTags ⟨[(exFile, ["a", "ab"])]⟩ cmpEq (some "a")) = 0 ∧
    (TreeBuilder.buildFromTags ⟨[(exFile, ["a", "ab"])]⟩ cmpEq (some "a")).data.fileCount = 0 ∧
    placementPaths exFile
      (TreeBuilder.buildFromTags ⟨[(exFile, ["a", "a/b", "a/b/c"])]⟩ cmpEq (some "a")) =
        ["a/b/c"] := by
  refine ⟨by decide, by decide, by decide, by decide, by decide, by decide⟩

/-- C2: in every tree returned by `buildFromTags`, every file node has
`fileCount = 1` and no children, every other node's `fileCount` is the sum of
its children's `fileCount`s, and every node's `fileCount` equals its number of
file-leaf descendants (`countsOk` checks all three at every node). -/
theorem c2_counts_invariant (idx : VaultIndexer) (cmp : String → String → Ordering)
    (rootTag : Option String) :
    countsOk (TreeBuilder.buildFromTags idx cmp rootTag) = true :=
  countsOk_buildFromTags idx cmp rootTag

/-- C3 (counterexample): a document with the two incomparable tags `"a"` and
`"b"` appears as a file leaf under two distinct tag paths in the built tree,
refuting "exactly one path". -/
theorem c3_counterexample :
    placementPaths exFile (TreeBuilder.buildFromTags ⟨[(exFile, ["a", "b"])]⟩ cmpEq none) =
      ["a", "b"] ∧
    (placementPaths exFile
      (TreeBuilder.buildFromTags ⟨[(exFile, ["a", "b"])]⟩ cmpEq none)).length ≠ 1 := by
  refine ⟨by decide, by decide⟩

/-- C3 (amended): for a well-formed index, the tag paths under which a
document appears as a file leaf are exactly the tag paths present in the tree
whose attached-file computation contains the document; and (for tags other
than the skipped literal map key `"root"`) a document is attached to tag `t`
exactly when it carries `t` and none of its tags is a strictly longer string
extension of `t`.  A document can therefore appear under zero paths (all its
placements suppressed or its tags orphaned) or under several (one per
incomparable maximal tag), and under exactly one when one maximal tag remains
reachable. -/
theorem c3_amended (idx : VaultIndexer) (cmp : String → String → Ordering)
    (rootTag : Option String) (f : TFile) (hwf : idx.wf) :
    placementPaths f (TreeBuilder.buildFromTags idx cmp rootTag) =
      (tagPathsIn (TreeBuilder.buildFromTags idx cmp rootTag)).filter
        (fun t => decide (f ∈ filesAttachedTo idx t)) ∧
    ∀ t, t ≠ "root" →
      (f ∈ filesAttachedTo idx t ↔
        (t ∈ idx.getFileTags f ∧
          ∀ u ∈ idx.getFileTags f, strStartsWith u t = true → strLen u ≤ strLen t)) := by
  constructor
  · exact placementPaths_buildFromTags idx cmp rootTag f
  · intro t ht
    unfold filesAttachedTo
    rw [if_neg ht]
    exact mem_filesToAddFor_iff idx hwf f t

theorem c3_amended_witness :
    (⟨[(exFile, ["a", "b"])]⟩ : VaultIndexer).wf ∧
    (placementPaths exFile (TreeBuilder.buildFromTags ⟨[(exFile, ["a", "b"])]⟩ cmpEq none) =
      (tagPathsIn (TreeBuilder.buildFromTags ⟨[(exFile, ["a", "b"])]⟩ cmpEq none)).filter
        (fun t => decide (exFile ∈ filesAttachedTo ⟨[(exFile, ["a", "b"])]⟩ t)) ∧
    ∀ t, t ≠ "root" →
      (exFile ∈ filesAttachedTo ⟨[(exFile, ["a", "b"])]⟩ t ↔
        (t ∈ (⟨[(exFile, ["a", "b"])]⟩ : VaultIndexer).getFileTags exFile ∧
          ∀ u ∈ (⟨[(exFile, ["a", "b"])]⟩ : VaultIndexer).getFileTags exFile,
            strStartsWith u t = true → strLen u ≤ strLen t))) :=
  ⟨by decide, c3_amended ⟨[(exFile, ["a", "b"])]⟩ cmpEq none exFile (by decide)⟩

/-- C4 (counterexample): the candidate tag `"a/b"` (its parent `"a"` is not a
candidate) yields no reachable group node at all: the built tree contains no
tag paths, because the node-creation loop finds no map entry for the parent
key and silently never attaches the node. -/
theorem c4_counterexample :
    TreeBuilder.candidateTags ⟨[(exFile, ["a/b"])]⟩ none = ["a/b"] ∧
    tagPathsIn (TreeBuilder.buildFromTags ⟨[(exFile, ["a/b"])]⟩ cmpEq none) = [] := by
  refine ⟨by decide, by decide⟩

/-- C4 (amended): a candidate tag is reachable from the returned root beneath
group nodes for each of its segment-prefix ancestors provided every proper
prefix is itself a (nonempty) candidate tag; with a missing intermediate
ancestor the node is created but never attached and is unreachable. -/
theorem c4_amended (idx : VaultIndexer) (cmp : String → String → Ordering)
    (rootTag : Option String) (t : String)
    (htC : t ∈ TreeBuilder.candidateTags idx rootTag)
    (hanc : ∀ p ∈ (ancestorChainOf t).dropLast,
      p ∈ TreeBuilder.candidateTags idx rootTag ∧ p ≠ "") :
    hasPathChain (TreeBuilder.buildFromTags idx cmp rootTag) (ancestorChainOf t) = true :=
  hasPathChain_buildFromTags idx cmp rootTag t htC hanc

theorem c4_amended_witness :
    ("a/b" ∈ TreeBuilder.candidateTags ⟨[(exFile, ["a"]), (exFile2, ["a/b"])]⟩ none) ∧
    (∀ p ∈ (ancestorChainOf "a/b").dropLast,
      p ∈ TreeBuilder.candidateTags ⟨[(exFile, ["a"]), (exFile2, ["a/b"])]⟩ none ∧ p ≠ "") ∧
    hasPathChain (TreeBuilder.buildFromTags ⟨[(exFile, ["a"]), (exFile2, ["a/b"])]⟩ cmpEq none)
      (ancestorChainOf "a/b") = true :=
  ⟨by decide, by decide,
   c4_amended ⟨[(exFile, ["a"]), (exFile2, ["a/b"])]⟩ cmpEq none "a/b" (by decide) (by decide)⟩

/-- C5: for every ancestor chain whose group nodes are well-formed (no empty
tag path, no empty property key, no null property value — the degenerate
metadata the source skips), `buildQuery` renders exactly the spec's
description: one fragment per metadata-carrying group node, root-to-leaf,
joined by single spaces, `tag:#<path>` for tag nodes and `[<key>:<value>]`
for property nodes, nothing for file nodes or the metadata-free root. -/
theorem c5_query_refinement (cfg : HierarchyConfig) (chain : List NodeData)
    (hwf : ∀ n ∈ chain, wfNode n) :
    SearchQueryBuilder.buildQuery cfg chain = specBuildQuery chain := by
  rw [buildQuery_eq_filterMap]
  unfold specBuildQuery
  congr 1
  apply List.filterMap_congr
  intro n hn
  exact buildNodeFilter_eq_specFragment cfg n (hwf n (List.mem_reverse.mp hn))

theorem c5_query_refinement_witness :
    (∀ n ∈ exChain, wfNode n) ∧
    SearchQueryBuilder.buildQuery exCfg exChain = specBuildQuery exChain :=
  ⟨by decide, c5_query_refinement exCfg exChain (by decide)⟩

/-- C6: in every built tree, under a transitive and antisymmetric-total model
of the locale comparison, every node's children are ordered: group (tag)
nodes precede file nodes, and adjacent same-kind children are nondecreasing
under the name comparison (`childLEB`, the comparator of
`sortTreeRecursive`). -/
theorem c6_children_sorted (idx : VaultIndexer) (cmp : String → String → Ordering)
    (rootTag : Option String)
    (htrans : ∀ x y z, cmp x y ≠ Ordering.gt → cmp y z ≠ Ordering.gt → cmp x z ≠ Ordering.gt)
    (htotal : ∀ x y, cmp x y = Ordering.gt → cmp y x ≠ Ordering.gt) :
    sortedOkB (childLEB cmp) (TreeBuilder.buildFromTags idx cmp rootTag) = true :=
  sortedOk_buildFromTags idx cmp rootTag htrans htotal

theorem c6_children_sorted_witness :
    (∀ x y z : String, cmpEq x y ≠ Ordering.gt → cmpEq y z ≠ Ordering.gt →
      cmpEq x z ≠ Ordering.gt) ∧
    (∀ x y : String, cmpEq x y = Ordering.gt → cmpEq y x ≠ Ordering.gt) ∧
    sortedOkB (childLEB cmpEq)
      (TreeBuilder.buildFromTags ⟨[(exFile, ["a", "a/b"]), (exFile2, ["a"])]⟩ cmpEq none) =
        true := by
  refine ⟨?_, ?_, ?_⟩
  · intro x y z h1 h2
    exact fun h => Ordering.noConfusion h
  · intro x y h
    cases h
  · exact c6_children_sorted ⟨[(exFile, ["a", "a/b"]), (exFile2, ["a"])]⟩ cmpEq none
      (by intro x y z h1 h2; exact fun h => Ordering.noConfusion h) (by intro x y h; cases h)

/-- C7: when the candidate tag set is empty — including a root-tag scope that
matches no indexed tag — `buildFromTags` returns normally (the embedding is a
total function) with a root that has no children and `fileCount = 0`. -/
theorem c7_empty_candidates (idx : VaultIndexer) (cmp : String → String → Ordering)
    (rootTag : Option String) (h : TreeBuilder.candidateTags idx rootTag = []) :
    (TreeBuilder.buildFromTags idx cmp rootTag).children = [] ∧
    (TreeBuilder.buildFromTags idx cmp rootTag).data.fileCount = 0 := by
  rw [buildFromTags_empty idx cmp rootTag h]
  exact ⟨rfl, rfl⟩

theorem c7_empty_candidates_witness :
    TreeBuilder.candidateTags ⟨[(exFile, ["x"])]⟩ (some "a") = [] ∧
    ((TreeBuilder.buildFromTags ⟨[(exFile, ["x"])]⟩ cmpEq (some "a")).children = [] ∧
     (TreeBuilder.buildFromTags ⟨[(exFile, ["x"])]⟩ cmpEq (some "a")).data.fileCount = 0) :=
  ⟨by decide, c7_empty_candidates ⟨[(exFile, ["x"])]⟩ cmpEq (some "a") (by decide)⟩

/-- C8: the embedded `buildQuery` is a pure function of the node's ancestor
chain — repeated applications yield equal strings (the source performs no
writes, so the embedding returns only the string) — and on a chain consisting
of a single node with no grouping metadata (the root) it yields the empty
string. -/
theorem c8_buildQuery_pure :
    (∀ (cfg : HierarchyConfig) (chain : List NodeData),
      SearchQueryBuilder.buildQuery cfg chain = SearchQueryBuilder.buildQuery cfg chain) ∧
    (∀ (cfg : HierarchyConfig) (n : NodeData), n.metadata = none →
      SearchQueryBuilder.buildQuery cfg [n] = "") := by
  constructor
  · intro cfg chain
    rfl
  · intro cfg n h
    have hbnf : SearchQueryBuilder.buildNodeFilter cfg n = none := by
      unfold SearchQueryBuilder.buildNodeFilter SearchQueryBuilder.buildTagFilter
        SearchQueryBuilder.buildPropertyFilter
      cases n.type <;> simp [h]
    unfold SearchQueryBuilder.buildQuery
    simp only [List.foldl_cons, List.foldl_nil, hbnf]
    rfl

theorem c8_buildQuery_pure_witness :
    (TreeBuilder.rootData.metadata = none) ∧
    SearchQueryBuilder.buildQuery exCfg [TreeBuilder.rootData] = "" :=
  ⟨by decide, c8_buildQuery_pure.2 exCfg TreeBuilder.rootData (by decide)⟩

/-- C9: `buildNodeFilter` yields no fragment exactly for file nodes, tag nodes
with an absent or empty `tagPath`, and property nodes with an absent or empty
`propertyKey` or an absent (`undefined`) or `null` `propertyValue`; the
property values `false`, `0` and the empty string are rendered via JS `String`
conversion as `[key:false]`, `[key:0]` and `[key:]`. -/
theorem c9_skip_characterization (cfg : HierarchyConfig) :
    (∀ n : NodeData, SearchQueryBuilder.buildNodeFilter cfg n = none ↔
      (n.type = NodeType.file ∨
       (n.type = NodeType.tag ∧
         (n.metadata.bind (·.tagPath) = none ∨ n.metadata.bind (·.tagPath) = some "")) ∨
       (n.type = NodeType.propertyGroup ∧
         (n.metadata.bind (·.propertyKey) = none ∨
          n.metadata.bind (·.propertyKey) = some "" ∨
          n.metadata.bind (·.propertyValue) = none ∨
          n.metadata.bind (·.propertyValue) = some JSValue.nullV)))) ∧
    SearchQueryBuilder.buildNodeFilter cfg (propNodeOf "key" (JSValue.bool false)) =
      some "[key:false]" ∧
    SearchQueryBuilder.buildNodeFilter cfg (propNodeOf "key" (JSValue.num 0)) =
      some "[key:0]" ∧
    SearchQueryBuilder.buildNodeFilter cfg (propNodeOf "key" (JSValue.str "")) =
      some "[key:]" := by
  refine ⟨fun n => buildNodeFilter_eq_none_iff cfg n, rfl, rfl, rfl⟩

/-- C10: in every built tree, the `files` array of the root and of every tag
group node is empty — documents enter the tree only as file-node children,
each holding exactly its single file (so per-node `files` never lists the
grouped files; `children`/`fileCount` carry that information). -/
theorem c10_files_field_empty (idx : VaultIndexer) (cmp : String → String → Ordering)
    (rootTag : Option String) :
    filesFieldOk (TreeBuilder.buildFromTags idx cmp rootTag) = true :=
  filesFieldOk_buildFromTags idx cmp rootTag
